import Mathlib

/-!
A verification development for the `rs-wnfs` private/public filesystem core.

The Rust sources are shallowly embedded in Lean:

* Pure data structures (headers, directory/file contents, versions,
  metadata) become Lean structures; `BTreeMap`/`BTreeSet` become
  association lists / lists.
* Machine bytes become `List Nat`; byte strings carried by blocks are
  `List Nat` as well.
* Fallible Rust code (`Result<_>`) becomes `Except FsError _`.
* Asynchronous block-store interaction becomes explicit state passing
  over a store value.
* Cryptographic primitives (SHA-256, AES key wrap, the skip-ratchet) are
  external crates for the repository; they are modelled as deterministic
  and (for key wrap) authenticated operations, as the specification
  describes them.

Components of the repository whose sources are not available (only their
callers are) are modelled from the specification; each such definition
carries a doc comment starting with `Modelled from the spec:`.
-/

namespace Wnfs

/-- Byte strings are modelled as lists of naturals. -/
abbrev Bytes := List Nat

/-- Modelled from the spec: the skip-ratchet (`skip_ratchet::Ratchet`, an
external crate).  Its exposed contract is `zero(seed)` and `inc()`; the
state is modelled as the seed together with the number of increments
performed, which is deterministic exactly as the spec requires. -/
structure Ratchet where
  seed : Bytes
  epoch : Nat
deriving DecidableEq, Repr

/-- Modelled from the spec: `Ratchet::zero(seed)` starts a ratchet at a seed. -/
def Ratchet.zero (seed : Bytes) : Ratchet := ⟨seed, 0⟩

/-- Modelled from the spec: `Ratchet::inc` advances the ratchet by one step,
deterministically. -/
def Ratchet.inc (r : Ratchet) : Ratchet := ⟨r.seed, r.epoch + 1⟩

/-- Modelled from the spec: a 32-byte AES temporal key,
`TemporalKey = H_temporal(ratchet_state)`.  Key bytes are kept abstract as
the (injective) encoding of the derivation input, tagged to separate the
temporal derivation from the snapshot derivation. -/
structure TemporalKey where
  bytes : Bytes
deriving DecidableEq, Repr

/-- Modelled from the spec: a 32-byte AES snapshot key,
`SnapshotKey = H_snapshot(TemporalKey)`. -/
structure SnapshotKey where
  bytes : Bytes
deriving DecidableEq, Repr

/-- Modelled from the spec: `TemporalKey::from(&ratchet)`, i.e.
`H("temporal" || ratchet_export())`; the hash is modelled as the tagged
encoding of the ratchet state. -/
def TemporalKey.fromRatchet (r : Ratchet) : TemporalKey :=
  ⟨0 :: r.epoch :: r.seed⟩

/-- Modelled from the spec: `TemporalKey::derive_snapshot_key`, i.e.
`H("snapshot" || temporal_key)`. -/
def TemporalKey.derive_snapshot_key (tk : TemporalKey) : SnapshotKey :=
  ⟨1 :: tk.bytes⟩

/-- Modelled from the spec: the fixed-width Bloom-style `Namefilter`
(`wnfs-namefilter`, a workspace crate whose source is not included).  Only
its exposed contract matters here: `add` accumulates an element and
`saturate` deterministically pads the filter; both are pure functions of
the filter value, exactly as the spec requires of them. -/
structure Namefilter where
  elems : List Bytes
  saturated : Bool
deriving DecidableEq, Repr

/-- Modelled from the spec: the empty namefilter (`Namefilter::default()`). -/
def Namefilter.empty : Namefilter := ⟨[], false⟩

/-- Modelled from the spec: `Namefilter::add` accumulates an element into
the filter. -/
def Namefilter.add (nf : Namefilter) (x : Bytes) : Namefilter :=
  ⟨nf.elems ++ [x], nf.saturated⟩

/-- Modelled from the spec: `Namefilter::saturate` deterministically pads
the filter to the target popcount; a pure function of the filter. -/
def Namefilter.saturate (nf : Namefilter) : Namefilter :=
  ⟨nf.elems, true⟩

/-- Version triple (`semver::Version` as used by `WNFS_VERSION`). -/
structure Version where
  major : Nat
  minor : Nat
  patch : Nat
deriving DecidableEq, Repr

/-- The repository's current serialization version `WNFS_VERSION = 0.2.0`. -/
def WNFS_VERSION : Version := ⟨0, 2, 0⟩

/-- Metadata of a node (`wnfs_common::Metadata`): creation and modification
timestamps, as i64 Unix times. -/
structure Metadata where
  created : Int
  modified : Int
deriving DecidableEq, Repr

/-- `Metadata::new(time)` sets both timestamps to `time`. -/
def Metadata.new (time : Int) : Metadata := ⟨time, time⟩

/-- `Metadata::upsert_mtime(time)` updates the modification timestamp. -/
def Metadata.upsert_mtime (m : Metadata) (time : Int) : Metadata :=
  ⟨m.created, time⟩

/-- The error taxonomy (`FsError` together with `BlockStoreError` kinds used
by the embedded operations). -/
inductive FsError where
  | NotFound
  | NotADirectory
  | NotAFile
  | DirectoryAlreadyExists
  | FileAlreadyExists
  | InvalidPath
  | UnexpectedVersion (v : Version)
  | CryptoError
  | DecodingError
  | MaximumBlockSizeExceeded (len : Nat)
deriving DecidableEq, Repr

/-- Content identifiers for the structured store model are abstract block
identifiers (indices into the store); the content-addressing scheme itself
is verified separately at byte level via `createCid`. -/
abbrev Cid := Nat

/-- Modelled from the spec: `Encrypted<T>` (from `private/encrypted.rs`,
not among the available sources) — a ciphertext produced by the
deterministic key-wrap encryption of a value under a temporal key
(`Encrypted::from_value`).  It is modelled as the pair of wrapping key and
plaintext, which is faithful for a deterministic authenticated wrap. -/
structure Encrypted (α : Type) where
  wrapKey : TemporalKey
  plain : α
deriving DecidableEq, Repr

/-- Modelled from the spec: `Encrypted::from_value(value, &temporal_key)`. -/
def Encrypted.from_value {α : Type} (v : α) (tk : TemporalKey) : Encrypted α :=
  ⟨tk, v⟩

/-! ## Private node header (`src/wnfs/src/private/node/header.rs`) -/

/-- The header of a private node: inumber, ratchet and bare namefilter
(`PrivateNodeHeader`). -/
structure PrivateNodeHeader where
  inumber : Bytes
  ratchet : Ratchet
  bare_name : Namefilter
deriving DecidableEq, Repr

/-- `PrivateNodeHeader::with_seed(parent_bare_name, ratchet_seed, inumber)`:
bare name is the parent's bare name with the inumber added; the ratchet
starts at the given seed. -/
def PrivateNodeHeader.with_seed (parent_bare_name : Namefilter)
    (ratchet_seed : Bytes) (inumber : Bytes) : PrivateNodeHeader :=
  { bare_name := parent_bare_name.add inumber
    ratchet := Ratchet.zero ratchet_seed
    inumber := inumber }

/-- `PrivateNodeHeader::new(parent_bare_name, rng)` with the two random
draws (inumber first, then ratchet seed) made explicit arguments; the
body is otherwise that of the source. -/
def PrivateNodeHeader.newWith (parent_bare_name : Namefilter)
    (inumber : Bytes) (ratchet_seed : Bytes) : PrivateNodeHeader :=
  { bare_name := parent_bare_name.add inumber
    ratchet := Ratchet.zero ratchet_seed
    inumber := inumber }

/-- `PrivateNodeHeader::advance_ratchet`. -/
def PrivateNodeHeader.advance_ratchet (h : PrivateNodeHeader) : PrivateNodeHeader :=
  { h with ratchet := h.ratchet.inc }

/-- `PrivateNodeHeader::derive_temporal_key`. -/
def PrivateNodeHeader.derive_temporal_key (h : PrivateNodeHeader) : TemporalKey :=
  TemporalKey.fromRatchet h.ratchet

/-- `PrivateNodeHeader::get_saturated_name_with_key`: add the temporal key
bytes to the bare name and saturate. -/
def PrivateNodeHeader.get_saturated_name_with_key (h : PrivateNodeHeader)
    (tk : TemporalKey) : Namefilter :=
  ((h.bare_name.add tk.bytes)).saturate

/-- `PrivateNodeHeader::get_saturated_name`. -/
def PrivateNodeHeader.get_saturated_name (h : PrivateNodeHeader) : Namefilter :=
  h.get_saturated_name_with_key h.derive_temporal_key

/-! ## Structured block store model

`PrivateNodeHeader::store` / `load_temporal` / `load_snapshot` and
`PublicFile::store` move structured data through a block store.  Blocks
are modelled as the structured data they decode to (serialization is the
identity on this structured view), and the store as the list of blocks
put so far, a fresh identifier being handed out per block. -/

/-- The kinds of field ciphertext payloads wrapped by header blocks. -/
inductive HeaderField where
  | inumberF (i : Bytes)
  | ratchetF (r : Ratchet)
  | bareNameF (n : Namefilter)
deriving DecidableEq, Repr

/-- Serializable form of a public file (`PublicFileSerializable`). -/
structure PublicFileSerializable where
  version : Version
  metadata : Metadata
  userland : Cid
  previous : List Cid
deriving DecidableEq, Repr

/-- A block, on its structured (decoded) view: a key-wrapped header field, a
small IPLD map of named links, or a serialized public file. -/
inductive BlockData where
  | wrapped (key : Bytes) (field : HeaderField)
  | ipldMap (entries : List (String × Cid))
  | pubFile (f : PublicFileSerializable)
deriving DecidableEq, Repr

/-- A block store: the list of blocks put so far, addressed by index. -/
abbrev Store := List BlockData

/-- `BlockStore::put_block` on the structured view: append the block and
return its identifier.  (The byte-level size check and CID computation
are verified separately via `createCid`.) -/
def putBlock (st : Store) (d : BlockData) : Cid × Store :=
  (st.length, st ++ [d])

/-- `BlockStore::get_block` on the structured view. -/
def getBlock (st : Store) (c : Cid) : Option BlockData :=
  st[c]?

/-- Modelled from the spec: `key_wrap_encrypt` — the deterministic AES
key-wrap of a structured payload under raw key bytes. -/
def keyWrapEncrypt (key : Bytes) (f : HeaderField) : BlockData :=
  .wrapped key f

/-- Modelled from the spec: `key_wrap_decrypt` — authenticated unwrap; it
fails with a crypto error unless the block is a wrap under the same key. -/
def keyWrapDecrypt (key : Bytes) (d : BlockData) : Except FsError HeaderField :=
  match d with
  | .wrapped key2 f => if key2 = key then .ok f else .error .CryptoError
  | _ => .error .CryptoError

/-- Fetch a block and unwrap it under a key (`key_wrap_decrypt` applied to
`store.get_block(cid)`), as done per field by the header loaders. -/
def getAndUnwrap (st : Store) (key : Bytes) (c : Cid) : Except FsError HeaderField :=
  match getBlock st c with
  | none => .error .NotFound
  | some d => keyWrapDecrypt key d

/-- `PrivateNodeHeader::store`: wrap the three fields (inumber and bare
name under the snapshot key, ratchet under the temporal key) into three
blocks, then put an IPLD map block linking them and return its identifier. -/
def PrivateNodeHeader.store (h : PrivateNodeHeader) (st : Store) : Cid × Store :=
  let temporal_key := h.derive_temporal_key
  let snapshot_key := temporal_key.derive_snapshot_key
  let (inumber_cid, st1) := putBlock st (keyWrapEncrypt snapshot_key.bytes (.inumberF h.inumber))
  let (ratchet_cid, st2) := putBlock st1 (keyWrapEncrypt temporal_key.bytes (.ratchetF h.ratchet))
  let (bare_name_cid, st3) := putBlock st2 (keyWrapEncrypt snapshot_key.bytes (.bareNameF h.bare_name))
  putBlock st3 (.ipldMap
    [("bare_name", bare_name_cid), ("inumber", inumber_cid), ("ratchet", ratchet_cid)])

/-- `PrivateNodeHeader::load_temporal`: fetch the map block, follow the
three links, unwrap inumber and bare name with the derived snapshot key
and the ratchet with the temporal key. -/
def PrivateNodeHeader.load_temporal (c : Cid) (temporal_key : TemporalKey)
    (st : Store) : Except FsError PrivateNodeHeader := do
  let snapshot_key := temporal_key.derive_snapshot_key
  let some d := getBlock st c | .error .NotFound
  let .ipldMap m := d | .error .DecodingError
  let some inumber_cid := m.lookup "inumber" | .error .DecodingError
  let some ratchet_cid := m.lookup "ratchet" | .error .DecodingError
  let some bare_name_cid := m.lookup "bare_name" | .error .DecodingError
  let inumber_field ← getAndUnwrap st snapshot_key.bytes inumber_cid
  let ratchet_field ← getAndUnwrap st temporal_key.bytes ratchet_cid
  let bare_name_field ← getAndUnwrap st snapshot_key.bytes bare_name_cid
  let .inumberF inumber := inumber_field | .error .DecodingError
  let .ratchetF ratchet := ratchet_field | .error .DecodingError
  let .bareNameF bare_name := bare_name_field | .error .DecodingError
  .ok { inumber, ratchet, bare_name }

/-- `PrivateNodeHeader::load_snapshot`: like `load_temporal` but with only
the snapshot key; the ratchet link is not followed and the ratchet field
is filled with the all-zero placeholder `Ratchet::zero([0; 32])`. -/
def PrivateNodeHeader.load_snapshot (c : Cid) (snapshot_key : SnapshotKey)
    (st : Store) : Except FsError PrivateNodeHeader := do
  let some d := getBlock st c | .error .NotFound
  let .ipldMap m := d | .error .DecodingError
  let some inumber_cid := m.lookup "inumber" | .error .DecodingError
  let some bare_name_cid := m.lookup "bare_name" | .error .DecodingError
  let inumber_field ← getAndUnwrap st snapshot_key.bytes inumber_cid
  let bare_name_field ← getAndUnwrap st snapshot_key.bytes bare_name_cid
  let .inumberF inumber := inumber_field | .error .DecodingError
  let .bareNameF bare_name := bare_name_field | .error .DecodingError
  .ok { inumber, ratchet := Ratchet.zero (List.replicate 32 0), bare_name }

/-! ## Public file (`src/wnfs/src/public/file.rs`) -/

/-- A file in the public (unencrypted) filesystem (`PublicFile`); the
`OnceCell<Cid>` cache becomes an optional identifier. -/
structure PublicFile where
  persisted_as : Option Cid
  metadata : Metadata
  userland : Cid
  previous : List Cid
deriving DecidableEq, Repr

/-- `PublicFile::new(time, content_cid)`. -/
def PublicFile.new (time : Int) (content_cid : Cid) : PublicFile :=
  { persisted_as := none
    metadata := Metadata.new time
    userland := content_cid
    previous := [] }

/-- `PublicFile::prepare_next_revision`: if never stored, return unchanged;
otherwise clear the persistence cache and make the cached identifier the
single previous link. -/
def PublicFile.prepare_next_revision (f : PublicFile) : PublicFile :=
  match f.persisted_as with
  | none => f
  | some previous_cid =>
    { f with persisted_as := none, previous := [previous_cid] }

/-- Serialization of a public file (`impl Serialize for PublicFile`):
version is stamped with `WNFS_VERSION`, the persistence cache is dropped. -/
def PublicFile.to_serializable (f : PublicFile) : PublicFileSerializable :=
  { version := WNFS_VERSION
    metadata := f.metadata
    userland := f.userland
    previous := f.previous }

/-- `PublicFile::store`: `get_or_try_init` on the persistence cache — if a
cached identifier exists return it without touching the store, otherwise
put the serialized file and cache the resulting identifier. -/
def PublicFile.store (f : PublicFile) (st : Store) : Cid × PublicFile × Store :=
  match f.persisted_as with
  | some c => (c, f, st)
  | none =>
    let (c, st2) := putBlock st (.pubFile f.to_serializable)
    (c, { f with persisted_as := some c }, st2)

/-- `PublicFile::from_serializable`: gate on the serialized version's major
and minor components, then reconstruct the file with an empty persistence
cache. -/
def PublicFile.from_serializable (s : PublicFileSerializable) :
    Except FsError PublicFile :=
  if s.version.major ≠ 0 ∨ s.version.minor ≠ 2 then
    .error (.UnexpectedVersion s.version)
  else
    .ok { persisted_as := none
          metadata := s.metadata
          userland := s.userland
          previous := s.previous }

/-! ## Byte-level content addressing
(`src/wnfs-common/src/blockstore/mod.rs`, `BlockStore::create_cid`) -/

/-- Modelled from the spec: `MAX_BLOCK_SIZE`, the implementation constant
bounding block sizes (256 KiB); its defining module is not among the
available sources.  No claim depends on the specific value. -/
def MAX_BLOCK_SIZE : Nat := 262144

/-- IPLD codecs used by the repository. -/
inductive Codec where
  | DagCbor
  | Raw
deriving DecidableEq, Repr

/-- The multicodec tag of a codec (`codec.into()` as `u64`). -/
def Codec.tag : Codec → Nat
  | .DagCbor => 0x71
  | .Raw => 0x55

/-- A multihash: hash-function code, digest size, digest. -/
structure Multihash where
  code : Nat
  size : Nat
  digest : Bytes
deriving DecidableEq, Repr

/-- A CID on its byte-level, content-addressed view: version, codec tag,
multihash (`Cid::new(Version::V1, codec.into(), hash)`).  Version 1 is the
only version constructed here. -/
structure CidV1 where
  codec : Nat
  hash : Multihash
deriving DecidableEq, Repr

/-- The SHA-256 multihash of a byte string (`Code::Sha2_256.digest`), for a
given digest function; the digest function itself is an external crate and
stays a parameter of the embedding. -/
def sha256Multihash (digest : Bytes → Bytes) (bytes : Bytes) : Multihash :=
  ⟨0x12, 32, digest bytes⟩

/-- `BlockStore::create_cid(bytes, codec)`: fail if the byte length exceeds
`MAX_BLOCK_SIZE`, otherwise build the v1 CID from the codec tag and the
SHA-256 multihash of the bytes. -/
def createCid (digest : Bytes → Bytes) (bytes : Bytes) (codec : Codec) :
    Except FsError CidV1 :=
  if bytes.length > MAX_BLOCK_SIZE then
    .error (.MaximumBlockSizeExceeded bytes.length)
  else
    .ok ⟨codec.tag, sha256Multihash digest bytes⟩

/-! ## HTTP client block store
(`src/wnfs-common/src/blockstore/clientnetworkblockstore.rs`) -/

/-- An HTTP request as assembled by the client store: method, URI, headers
and body bytes. -/
structure HttpRequest where
  method : String
  uri : String
  headers : List (String × String)
  body : Bytes
deriving DecidableEq, Repr

/-- A rendering of a CID as a string (`cid.to_string()`); the exact base32
text is irrelevant to the requests' shape, so components are printed
directly. -/
def CidV1.render (c : CidV1) : String :=
  toString c.codec ++ "-" ++ toString c.hash.code ++ "-" ++ toString c.hash.digest

/-- The UTF-8 bytes of an ASCII string, for request bodies. -/
def strBytes (s : String) : Bytes :=
  s.toList.map Char.toNat

/-- `ClientNetworkBlockStore::put_block`, request-assembly part: the CID is
computed from the bytes, the URI is `http://addr/api/v0/block/put/<cid>`,
the `Host` header is set, and the body is `Body::from("data")` — the
literal string `data`; the `FormData` built from the block bytes is never
attached to the request. -/
def clientPutBlockRequest (digest : Bytes → Bytes) (addr : String)
    (bytes : Bytes) (codec : Codec) : Except FsError (HttpRequest × CidV1) := do
  let cid ← createCid digest bytes codec
  .ok ({ method := "POST"
         uri := "http://" ++ addr ++ "/api/v0/block/put/" ++ cid.render
         headers := [("Host", addr)]
         body := strBytes "data" }, cid)

/-- `ClientNetworkBlockStore::get_block`, request-assembly part: the URI is
`addr/api/v0/block/get/` with no query string; the CID travels in a header
named `arg`, and the `Host` header is hard-coded to `example.com`. -/
def clientGetBlockRequest (addr : String) (cid : CidV1) : HttpRequest :=
  { method := "POST"
    uri := addr ++ "/api/v0/block/get/"
    headers := [("Host", "example.com"), ("arg", cid.render)]
    body := strBytes "" }

/-! ## Private files and the private directory tree
(`src/wnfs/src/private/directory.rs`; the `PrivateFile`, `PrivateLink` and
`PrivateRef` modules are not among the available sources and are modelled
from the spec).

`Rc`-held nodes mutated through `Rc::make_mut` obey value semantics, so
the tree operations become pure functions from directory values to
directory values.  (The aliasing behaviour of the `Rc` heap itself is
modelled separately, see the `Rc` namespace below.)  The forest/store
interaction of link resolution and latest-revision search is abstracted
into two oracle functions `resolveO` and `latestO` describing runs in
which those store interactions succeed. -/

/-- Modelled from the spec: `PrivateRef` — saturated-name hash, temporal
key and content CID of a specific revision. -/
structure PrivateRef where
  saturated_name_hash : Bytes
  temporal_key : TemporalKey
  content_cid : Cid
deriving DecidableEq, Repr

/-- Modelled from the spec: the content slot of a private file — inline
bytes, or the external chunked form recording base name, content key and
block count.  The external form's per-chunk forest storage is outside
this model; the external constructor records the logical data. -/
inductive FileContent where
  | inline (data : Bytes)
  | external (base_name : Namefilter) (key : Bytes) (block_count : Nat) (data : Bytes)
deriving DecidableEq, Repr

/-- Modelled from the spec: the maximum inline content size below which
file content is stored inline rather than chunked. -/
def MAX_INLINE_CONTENT_SIZE : Nat := 2048

/-- Modelled from the spec: `PrivateFile::prepare_content` — inline the
bytes if small, otherwise produce the external chunked form (with a fresh
content key, passed in as the random draw). -/
def prepareContent (bare_name : Namefilter) (content : Bytes) (keyDraw : Bytes) :
    FileContent :=
  if content.length ≤ MAX_INLINE_CONTENT_SIZE then
    .inline content
  else
    .external bare_name keyDraw (content.length / MAX_INLINE_CONTENT_SIZE + 1) content

/-- Modelled from the spec: `PrivateFileContent` — persistence cache,
previous links, metadata and content. -/
structure PrivateFileContent where
  persisted_as : Option Cid
  previous : List (Nat × Encrypted Cid)
  metadata : Metadata
  content : FileContent
deriving DecidableEq, Repr

/-- Modelled from the spec: `PrivateFile` — header plus content. -/
structure PrivateFile where
  header : PrivateNodeHeader
  content : PrivateFileContent
deriving DecidableEq, Repr

/-- Modelled from the spec: `PrivateFile::new(parent_bare_name, time, rng)`
with the two random draws (inumber, ratchet seed) explicit: a fresh file
with empty inline content. -/
def PrivateFile.newWith (parent_bare_name : Namefilter) (time : Int)
    (inumber ratchet_seed : Bytes) : PrivateFile :=
  { header := PrivateNodeHeader.newWith parent_bare_name inumber ratchet_seed
    content :=
      { persisted_as := none
        previous := []
        metadata := Metadata.new time
        content := .inline [] } }

/-- Modelled from the spec: `PrivateFile::prepare_next_revision` — the same
copy-on-write pattern as for directories: if never stored return
unchanged, otherwise record the cached CID (key-wrapped under the current
temporal key) as the single previous link, clear the cache, and advance
the ratchet. -/
def PrivateFile.prepare_next_revision (f : PrivateFile) : PrivateFile :=
  match f.content.persisted_as with
  | none => f
  | some previous_cid =>
    let temporal_key := f.header.derive_temporal_key
    { header := f.header.advance_ratchet
      content :=
        { f.content with
            persisted_as := none
            previous := [(1, Encrypted.from_value previous_cid temporal_key)] } }

/-- Modelled from the spec: `PrivateFile::with_content` — a fresh file
whose content is the prepared encoding of the given bytes; consumes three
random draws (inumber, ratchet seed, content key). -/
def PrivateFile.with_content (parent_bare_name : Namefilter) (time : Int)
    (content : Bytes) (rng : Nat → Bytes) (k : Nat) : PrivateFile × Nat :=
  let f := PrivateFile.newWith parent_bare_name time (rng k) (rng (k + 1))
  ({ f with content :=
      { f.content with content := prepareContent f.header.bare_name content (rng (k + 2)) } },
   k + 3)

/-- The data a read of the file reassembles (`PrivateFile::get_content`):
inline data directly, external data from its chunks. -/
def PrivateFile.get_content (f : PrivateFile) : Bytes :=
  match f.content.content with
  | .inline data => data
  | .external _ _ _ data => data

mutual

/-- A directory in the private filesystem (`PrivateDirectory`): header plus
content. -/
inductive PrivateDirectory where
  | mk (header : PrivateNodeHeader) (content : PrivateDirectoryContent)

/-- `PrivateDirectoryContent`: persistence cache, previous links, metadata,
and named entries. -/
inductive PrivateDirectoryContent where
  | mk (persisted_as : Option Cid) (previous : List (Nat × Encrypted Cid))
       (metadata : Metadata) (entries : List (String × PrivateLink))

/-- Modelled from the spec: `PrivateLink` — either a not-yet-resolved
reference or a materialised node. -/
inductive PrivateLink where
  | ref (r : PrivateRef)
  | node (n : PrivateNode)

/-- `PrivateNode`: tagged file-or-directory variant. -/
inductive PrivateNode where
  | file (f : PrivateFile)
  | dir (d : PrivateDirectory)

end

/-- Header accessor of a directory. -/
def PrivateDirectory.header : PrivateDirectory → PrivateNodeHeader
  | .mk h _ => h

/-- Persistence-cache accessor of a directory. -/
def PrivateDirectory.persisted_as : PrivateDirectory → Option Cid
  | .mk _ (.mk p _ _ _) => p

/-- Previous-links accessor of a directory. -/
def PrivateDirectory.previous : PrivateDirectory → List (Nat × Encrypted Cid)
  | .mk _ (.mk _ p _ _) => p

/-- Metadata accessor of a directory. -/
def PrivateDirectory.metadata : PrivateDirectory → Metadata
  | .mk _ (.mk _ _ m _) => m

/-- Entries accessor of a directory. -/
def PrivateDirectory.entries : PrivateDirectory → List (String × PrivateLink)
  | .mk _ (.mk _ _ _ e) => e

/-- `PrivateDirectory::with_seed(parent_bare_name, time, ratchet_seed,
inumber)`: deterministic constructor delegating to
`PrivateNodeHeader::with_seed`, with empty content. -/
def PrivateDirectory.with_seed (parent_bare_name : Namefilter) (time : Int)
    (ratchet_seed : Bytes) (inumber : Bytes) : PrivateDirectory :=
  .mk (PrivateNodeHeader.with_seed parent_bare_name ratchet_seed inumber)
    (.mk none [] (Metadata.new time) [])

/-- `PrivateDirectory::new(parent_bare_name, time, rng)` with the two
random draws explicit. -/
def PrivateDirectory.newWith (parent_bare_name : Namefilter) (time : Int)
    (inumber ratchet_seed : Bytes) : PrivateDirectory :=
  .mk (PrivateNodeHeader.newWith parent_bare_name inumber ratchet_seed)
    (.mk none [] (Metadata.new time) [])

/-- `PrivateDirectory::prepare_next_revision` (value level): if the
current revision was never stored (`persisted_as` unset), return it
unchanged; otherwise key-wrap the cached CID under the current temporal
key as the single previous link with skip distance 1, clear the cache,
and advance the ratchet. -/
def PrivateDirectory.prepare_next_revision (d : PrivateDirectory) : PrivateDirectory :=
  match d with
  | .mk header (.mk persisted_as _previous metadata entries) =>
    match persisted_as with
    | none => d
    | some previous_cid =>
      let temporal_key := header.derive_temporal_key
      .mk header.advance_ratchet
        (.mk none [(1, Encrypted.from_value previous_cid temporal_key)] metadata entries)

/-- Replace (or add) the entry at a key in an association list, as
`BTreeMap::insert` does on the map view. -/
def assocSet {α : Type} : List (String × α) → String → α → List (String × α)
  | [], key, v => [(key, v)]
  | (key2, v2) :: rest, key, v =>
    if key2 = key then (key, v) :: rest else (key2, v2) :: assocSet rest key v

/-- Replace (or add) a directory entry. -/
def PrivateDirectory.setEntry (d : PrivateDirectory) (key : String)
    (link : PrivateLink) : PrivateDirectory :=
  match d with
  | .mk header (.mk persisted_as previous metadata entries) =>
    .mk header (.mk persisted_as previous metadata (assocSet entries key link))

/-- `split_last` over path segments (`crate::utils::split_last` /
`[T]::split_last`): the initial segments and the last one. -/
def splitLast {α : Type} : List α → Option (List α × α)
  | [] => none
  | [x] => some ([], x)
  | x :: y :: rest =>
    match splitLast (y :: rest) with
    | some (path, last) => some (x :: path, last)
    | none => none

/-- The search result of a leaf-directory walk (`SearchResult`). -/
inductive SearchResultT (α : Type) where
  | found (dir : α)
  | notADir (dir : α) (depth : Nat)
  | missing (dir : α) (depth : Nat)

section TreeOps

variable (resolveO : PrivateRef → PrivateNode) (latestO : PrivateNode → PrivateNode)

/-- `PrivateLink::resolve_node`: a materialised link yields its node; a
reference is resolved through the forest/store, abstracted by the
`resolveO` oracle. -/
def resolveLink : PrivateLink → PrivateNode
  | .node n => n
  | .ref r => resolveO r

/-- `PrivateDirectory::lookup_node(path_segment, search_latest)`: look the
segment up among the entries, resolve, and — when `search_latest` — take
the node's latest revision (the `latestO` oracle). -/
def lookupNode (d : PrivateDirectory) (seg : String) (sl : Bool) :
    Option PrivateNode :=
  match d.entries.lookup seg with
  | some l =>
    let n := resolveLink resolveO l
    some (if sl then latestO n else n)
  | none => none

/-- `PrivateDirectory::lookup_node_mut`: as `lookup_node`, but the
resolved (and, under `search_latest`, fast-forwarded) node is written
back into the entry, mirroring the link's resolution cache and the
`*private_node = private_node.search_latest(...)` assignment. -/
def lookupNodeMut (d : PrivateDirectory) (seg : String) (sl : Bool) :
    Option (PrivateNode × PrivateDirectory) :=
  match d.entries.lookup seg with
  | some l =>
    let n := resolveLink resolveO l
    let n2 := if sl then latestO n else n
    some (n2, d.setEntry seg (.node n2))
  | none => none

/-- The loop of `PrivateDirectory::get_leaf_dir`. -/
def getLeafDirGo (d : PrivateDirectory) (segs : List String) (depth : Nat)
    (sl : Bool) : SearchResultT PrivateDirectory :=
  match segs with
  | [] => .found d
  | seg :: rest =>
    match lookupNode resolveO latestO d seg sl with
    | some (.dir child) => getLeafDirGo child rest (depth + 1) sl
    | some (.file _) => .notADir d depth
    | none => .missing d depth

/-- `PrivateDirectory::get_leaf_dir(path_segments, search_latest)`. -/
def getLeafDir (d : PrivateDirectory) (segs : List String) (sl : Bool) :
    SearchResultT PrivateDirectory :=
  getLeafDirGo resolveO latestO d segs 0 sl

/-- The loop of `PrivateDirectory::get_leaf_dir_mut`, in zipper form: the
result tag, the directory the walk stopped at (the leaf when found), and
the context function rebuilding the root from a replacement for that
directory.  Each directory on the path is revision-prepared before
descending.  The inner dead branch mirrors the source's `unwrap`s after
the repeated lookup (unreachable because the immutable lookup just
returned a directory). -/
def getLeafDirMutGo (cur : PrivateDirectory) (segs : List String) (depth : Nat)
    (sl : Bool) :
    SearchResultT Unit × PrivateDirectory × (PrivateDirectory → PrivateDirectory) :=
  match segs with
  | [] => (.found (), cur, fun x => x)
  | seg :: rest =>
    match lookupNode resolveO latestO cur seg sl with
    | some (.dir _) =>
      match lookupNodeMut resolveO latestO cur seg sl with
      | some (.dir child, cur2) =>
        let child2 := child.prepare_next_revision
        let (res, stop, ctx) := getLeafDirMutGo child2 rest (depth + 1) sl
        (res, stop, fun x => cur2.setEntry seg (.node (.dir (ctx x))))
      | _ => (.notADir () depth, cur, fun x => x)
    | some (.file _) => (.notADir () depth, cur, fun x => x)
    | none => (.missing () depth, cur, fun x => x)

/-- `PrivateDirectory::get_leaf_dir_mut`: revision-prepare the root, then
walk. -/
def getLeafDirMut (root : PrivateDirectory) (segs : List String) (sl : Bool) :
    SearchResultT Unit × PrivateDirectory × (PrivateDirectory → PrivateDirectory) :=
  getLeafDirMutGo resolveO latestO root.prepare_next_revision segs 0 sl

/-- The creation loop of `PrivateDirectory::get_or_create_leaf_dir_mut`
(the `Missing` branch): for each remaining segment, `or_insert_with` a
fresh empty directory built from the current directory's bare name, and
descend into it.  The file branch mirrors the source's `as_dir_mut`
`unwrap` (unreachable in the `Missing` flow). -/
def createChain (cur : PrivateDirectory) (segs : List String) (time : Int)
    (rng : Nat → Bytes) (k : Nat) :
    PrivateDirectory × (PrivateDirectory → PrivateDirectory) × Nat :=
  match segs with
  | [] => (cur, fun x => x, k)
  | seg :: rest =>
    match cur.entries.lookup seg with
    | some l =>
      match resolveLink resolveO l with
      | .dir child =>
        let (leaf, ctx, k2) := createChain child rest time rng k
        (leaf, fun x => cur.setEntry seg (.node (.dir (ctx x))), k2)
      | .file _ => (cur, fun x => x, k)
    | none =>
      let child := PrivateDirectory.newWith cur.header.bare_name time (rng k) (rng (k + 1))
      let (leaf, ctx, k2) := createChain child rest time rng (k + 2)
      (leaf, fun x => cur.setEntry seg (.node (.dir (ctx x))), k2)

/-- `PrivateDirectory::get_or_create_leaf_dir_mut`: walk mutably; on
`Missing`, create the remaining directories; on `NotADir`, fail with
`NotADirectory`.  The error case carries the (already partially
revision-prepared) root, since in the source the mutations made so far
persist in `self`. -/
def getOrCreateLeafDirMut (root : PrivateDirectory) (segs : List String)
    (time : Int) (sl : Bool) (rng : Nat → Bytes) (k : Nat) :
    Except (FsError × PrivateDirectory)
      (PrivateDirectory × (PrivateDirectory → PrivateDirectory) × Nat) :=
  match getLeafDirMut resolveO latestO root segs sl with
  | (.found _, leaf, ctx) => .ok (leaf, ctx, k)
  | (.missing _ depth, stop, ctx) =>
    let (leaf, ctx2, k2) := createChain resolveO stop (segs.drop depth) time rng k
    .ok (leaf, fun x => ctx (ctx2 x), k2)
  | (.notADir _ _, stop, ctx) => .error (.NotADirectory, ctx stop)

/-- `PrivateDirectory::write(path_segments, search_latest, time, content)`:
open the leaf directory mutably (creating missing directories); if the
last segment holds a file, revision-prepare it, re-encode the content and
update the mtime; if it holds a directory, fail with
`DirectoryAlreadyExists`; if it is absent, insert a fresh
`PrivateFile::with_content`.  The returned directory is the caller's
`self` after the call (mutations persist also on error). -/
def write (root : PrivateDirectory) (segs : List String) (sl : Bool)
    (time : Int) (content : Bytes) (rng : Nat → Bytes) (k : Nat) :
    Except FsError Unit × PrivateDirectory × Nat :=
  match splitLast segs with
  | none => (.error .InvalidPath, root, k)
  | some (path, filename) =>
    match getOrCreateLeafDirMut resolveO latestO root path time sl rng k with
    | .error (e, root2) => (.error e, root2, k)
    | .ok (leaf, ctx, k1) =>
      match lookupNodeMut resolveO latestO leaf filename sl with
      | some (.file f, leaf2) =>
        let f1 := f.prepare_next_revision
        let f2 : PrivateFile :=
          { f1 with content :=
              { f1.content with
                  content := prepareContent f1.header.bare_name content (rng k1)
                  metadata := f1.content.metadata.upsert_mtime time } }
        (.ok (), ctx (leaf2.setEntry filename (.node (.file f2))), k1 + 1)
      | some (.dir _, leaf2) =>
        (.error .DirectoryAlreadyExists, ctx leaf2, k1)
      | none =>
        let (nf, k2) := PrivateFile.with_content leaf.header.bare_name time content rng k1
        (.ok (), ctx (leaf.setEntry filename (.node (.file nf))), k2)

/-- `PrivateDirectory::get_node(path_segments, search_latest)`: an empty
path returns `None` immediately; otherwise walk the initial segments to
the leaf directory and look the last one up. -/
def getNode (d : PrivateDirectory) (segs : List String) (sl : Bool) :
    Option PrivateNode :=
  match splitLast segs with
  | none => none
  | some (path, tail) =>
    match getLeafDir resolveO latestO d path sl with
    | .found dir => lookupNode resolveO latestO dir tail sl
    | _ => none

end TreeOps

/-! ## Deserializing a persisted private directory
(`PrivateDirectory::from_serializable_temporal`) -/

/-- Modelled from the spec: a temporal key wrapped under the parent's
temporal key, as stored in `PrivateRefSerializable`; deterministic
authenticated key wrap, modelled as wrapping key plus payload. -/
structure WrappedKey where
  wrapKey : TemporalKey
  payload : Bytes
deriving DecidableEq, Repr

/-- Modelled from the spec: `PrivateRefSerializable` — saturated-name
hash, content CID, and the revision's temporal key wrapped with the
parent's temporal key. -/
structure PrivateRefSerializable where
  saturated_name_hash : Bytes
  content_cid : Cid
  temporal_key : WrappedKey
deriving DecidableEq, Repr

/-- Modelled from the spec: `PrivateRef::from_serializable` — unwrap the
temporal key with the parent's temporal key; fails with a crypto error on
key mismatch. -/
def PrivateRef.from_serializable (s : PrivateRefSerializable)
    (parent_key : TemporalKey) : Except FsError PrivateRef :=
  if s.temporal_key.wrapKey = parent_key then
    .ok { saturated_name_hash := s.saturated_name_hash
          temporal_key := ⟨s.temporal_key.payload⟩
          content_cid := s.content_cid }
  else
    .error .CryptoError

/-- `PrivateDirectoryContentSerializable`: version, previous links, header
CID, metadata, and entries as serializable private refs. -/
structure PrivateDirectoryContentSerializable where
  version : Version
  previous : List (Nat × Encrypted Cid)
  header_cid : Cid
  metadata : Metadata
  entries : List (String × PrivateRefSerializable)
deriving DecidableEq, Repr

/-- Decrypt the serialized entries one by one, as the loop in
`from_serializable_temporal` does. -/
def decryptEntries (entries : List (String × PrivateRefSerializable))
    (temporal_key : TemporalKey) :
    Except FsError (List (String × PrivateLink)) :=
  match entries with
  | [] => .ok []
  | (name, s) :: rest => do
    let private_ref ← PrivateRef.from_serializable s temporal_key
    let tail ← decryptEntries rest temporal_key
    .ok ((name, PrivateLink.ref private_ref) :: tail)

/-- `PrivateDirectory::from_serializable_temporal`: gate on the serialized
version's major and minor components; then decrypt the entries with the
given temporal key, load the header from its CID, and reconstruct the
directory with the persistence cache set to the CID it was loaded from. -/
def PrivateDirectory.from_serializable_temporal
    (s : PrivateDirectoryContentSerializable) (temporal_key : TemporalKey)
    (cid : Cid) (st : Store) : Except FsError PrivateDirectory :=
  if s.version.major ≠ 0 ∨ s.version.minor ≠ 2 then
    .error (.UnexpectedVersion s.version)
  else do
    let entries_decrypted ← decryptEntries s.entries temporal_key
    let header ← PrivateNodeHeader.load_temporal s.header_cid temporal_key st
    .ok (.mk header (.mk (some cid) s.previous s.metadata entries_decrypted))

namespace Rc

/-! ## The `Rc` heap model

`PrivateDirectory::write` mutates a tree of `Rc<PrivateDirectory>` cells
through `&mut Rc<_>` handles, always via `Rc::make_mut`: a uniquely owned
cell is mutated in place, a shared cell is cloned first.  The
copy-on-write claim is about exactly this aliasing behaviour, so it is
verified over an explicit heap of directory cells: addresses are indices
into a list of directory objects, each with a reference count.  Cloning a
cell copies its entry map, which increments the count of every child cell
(one new `Rc::clone` per entry), and drops the old handle.  Files carry
no children, so their `Rc` cells obey value semantics and are stored
inline.  The model covers `search_latest = false` runs (latest-revision
search reads the forest, which is outside the heap). -/

/-- An entry of a directory object: a child directory cell address, or an
inline file. -/
inductive EntryH where
  | dirE (addr : Nat)
  | fileE (f : PrivateFile)
deriving DecidableEq, Repr

/-- The content of a directory cell. -/
structure DirContentH where
  persisted_as : Option Cid
  previous : List (Nat × Encrypted Cid)
  metadata : Metadata
  entries : List (String × EntryH)
deriving DecidableEq, Repr

/-- A directory cell: header plus content. -/
structure DirObjH where
  header : PrivateNodeHeader
  content : DirContentH
deriving DecidableEq, Repr

instance : Inhabited DirObjH :=
  ⟨⟨⟨[], ⟨[], 0⟩, ⟨[], false⟩⟩, ⟨none, [], ⟨0, 0⟩, []⟩⟩⟩

/-- The heap: allocated directory cells (addressed by index) and their
reference counts. -/
structure Heap where
  objs : List DirObjH
  rc : Nat → Nat

/-- The child cell addresses referenced by a directory object's entries
(with multiplicity). -/
def dirChildren (o : DirObjH) : List Nat :=
  o.content.entries.filterMap fun e =>
    match e.2 with
    | .dirE a => some a
    | .fileE _ => none

/-- Dereference a cell address. -/
def Heap.obj (h : Heap) (a : Nat) : DirObjH :=
  h.objs.getD a default

/-- Overwrite a cell in place (sound only through `makeMut`). -/
def Heap.setObj (h : Heap) (a : Nat) (o : DirObjH) : Heap :=
  { h with objs := h.objs.set a o }

/-- `Rc::make_mut` on the handle of cell `a`: a uniquely owned cell is
handed out as-is; a shared cell is cloned to a fresh address — the clone
copies the entry map, so every child's count rises by its multiplicity,
the old cell loses the moved handle, and the fresh cell starts at one. -/
def Heap.makeMut (h : Heap) (a : Nat) : Nat × Heap :=
  if h.rc a ≤ 1 then (a, h)
  else
    let o := h.obj a
    let fresh := h.objs.length
    (fresh,
     { objs := h.objs ++ [o]
       rc := fun x =>
         if x = fresh then 1
         else if x = a then h.rc x + (dirChildren o).count x - 1
         else h.rc x + (dirChildren o).count x })

/-- Allocate a fresh cell with count one (`Rc::new`). -/
def Heap.alloc (h : Heap) (o : DirObjH) : Nat × Heap :=
  (h.objs.length,
   { objs := h.objs ++ [o]
     rc := fun x => if x = h.objs.length then 1 else h.rc x })

/-- Replace (or add) an entry of the cell at `a` (sound only after
`makeMut`). -/
def Heap.updateEntry (h : Heap) (a : Nat) (key : String) (e : EntryH) : Heap :=
  let o := h.obj a
  h.setObj a
    { o with content := { o.content with entries := assocSet o.content.entries key e } }

/-- `PrivateDirectory::prepare_next_revision` on the heap: `Rc::make_mut`
the handle; when the cell carries a cached CID, additionally key-wrap it
under the current temporal key as the single previous link, clear the
cache and advance the ratchet. -/
def Heap.prepareNextRev (h : Heap) (a : Nat) : Nat × Heap :=
  match (h.obj a).content.persisted_as with
  | none => h.makeMut a
  | some previous_cid =>
    let temporal_key := (h.obj a).header.derive_temporal_key
    let (a2, h2) := h.makeMut a
    let o := h2.obj a2
    (a2, h2.setObj a2
      { header := o.header.advance_ratchet
        content :=
          { o.content with
              persisted_as := none
              previous := [(1, Encrypted.from_value previous_cid temporal_key)] } })

/-- Search-result tag of the heap walks. -/
inductive SRes where
  | found
  | notADir (depth : Nat)
  | missing (depth : Nat)
deriving DecidableEq, Repr

/-- The loop of `get_leaf_dir_mut` on the heap: look the segment up; for a
child directory, revision-prepare it through its handle stored in the
current cell's entry (the handle replacement writes the possibly fresh
address back into the entry) and descend. -/
def Heap.descend (h : Heap) (cur : Nat) (segs : List String) (depth : Nat) :
    SRes × Nat × Heap :=
  match segs with
  | [] => (.found, cur, h)
  | seg :: rest =>
    match (h.obj cur).content.entries.lookup seg with
    | some (.dirE c) =>
      let (c2, h2) := h.prepareNextRev c
      let h3 := h2.updateEntry cur seg (.dirE c2)
      h3.descend c2 rest (depth + 1)
    | some (.fileE _) => (.notADir depth, cur, h)
    | none => (.missing depth, cur, h)

/-- Fresh directory cell data (`PrivateDirectory::new` with explicit
random draws). -/
def newDirObj (parent_bare_name : Namefilter) (time : Int)
    (inumber ratchet_seed : Bytes) : DirObjH :=
  { header := PrivateNodeHeader.newWith parent_bare_name inumber ratchet_seed
    content := { persisted_as := none, previous := [], metadata := Metadata.new time, entries := [] } }

/-- The creation loop of `get_or_create_leaf_dir_mut` on the heap: for
each remaining segment, `or_insert_with` a fresh empty directory cell
(`Rc::make_mut` on the freshly inserted, uniquely owned cell is the
identity) and descend; an existing entry is `make_mut`-ed through the
handle in the current cell.  The file branch mirrors the source's
`as_dir_mut` `unwrap` (unreachable in the `Missing` flow). -/
def Heap.createChain (h : Heap) (cur : Nat) (segs : List String) (time : Int)
    (rng : Nat → Bytes) (k : Nat) : Nat × Heap × Nat :=
  match segs with
  | [] => (cur, h, k)
  | seg :: rest =>
    match (h.obj cur).content.entries.lookup seg with
    | some (.dirE c) =>
      let (c2, h2) := h.makeMut c
      let h3 := h2.updateEntry cur seg (.dirE c2)
      h3.createChain c2 rest time rng k
    | some (.fileE _) => (cur, h, k)
    | none =>
      let child := newDirObj (h.obj cur).header.bare_name time (rng k) (rng (k + 1))
      let (c, h2) := h.alloc child
      let h3 := h2.updateEntry cur seg (.dirE c)
      h3.createChain c rest time rng (k + 2)

/-- `get_or_create_leaf_dir_mut` on the heap: revision-prepare the root
through its handle (whose address may move), walk, and create missing
directories.  Returns the result, the root handle's new address, the
heap, and the random counter. -/
def Heap.getOrCreate (h : Heap) (root : Nat) (segs : List String) (time : Int)
    (rng : Nat → Bytes) (k : Nat) : Except FsError Nat × Nat × Heap × Nat :=
  let (r0, h0) := h.prepareNextRev root
  match h0.descend r0 segs 0 with
  | (.found, leaf, h1) => (.ok leaf, r0, h1, k)
  | (.missing depth, stop, h1) =>
    let (leaf, h2, k2) := h1.createChain stop (segs.drop depth) time rng k
    (.ok leaf, r0, h2, k2)
  | (.notADir _, _, h1) => (.error .NotADirectory, r0, h1, k)

/-- Outcome of a heap-level write: result, the root handle's new address,
the heap, and the random counter. -/
structure WriteOut where
  result : Except FsError Unit
  newRoot : Nat
  heap : Heap
  ctr : Nat

/-- `PrivateDirectory::write` on the heap (`search_latest = false`): open
the leaf cell mutably, then create/replace/fail on the last segment as
the source's match does. -/
def Heap.write (h : Heap) (root : Nat) (segs : List String) (time : Int)
    (content : Bytes) (rng : Nat → Bytes) (k : Nat) : WriteOut :=
  match splitLast segs with
  | none => ⟨.error .InvalidPath, root, h, k⟩
  | some (path, filename) =>
    match h.getOrCreate root path time rng k with
    | (.error e, r0, h1, k1) => ⟨.error e, r0, h1, k1⟩
    | (.ok leaf, r0, h1, k1) =>
      match (h1.obj leaf).content.entries.lookup filename with
      | some (.fileE f) =>
        let f1 := f.prepare_next_revision
        let f2 : PrivateFile :=
          { f1 with content :=
              { f1.content with
                  content := prepareContent f1.header.bare_name content (rng k1)
                  metadata := f1.content.metadata.upsert_mtime time } }
        ⟨.ok (), r0, h1.updateEntry leaf filename (.fileE f2), k1 + 1⟩
      | some (.dirE _) => ⟨.error .DirectoryAlreadyExists, r0, h1, k1⟩
      | none =>
        let (nf, k2) := PrivateFile.with_content (h1.obj leaf).header.bare_name time content rng k1
        ⟨.ok (), r0, h1.updateEntry leaf filename (.fileE nf), k2⟩

/-- The loop of `get_leaf_dir` on the heap (read-only). -/
def Heap.getLeafDir (h : Heap) (cur : Nat) (segs : List String) (depth : Nat) :
    SRes × Nat :=
  match segs with
  | [] => (.found, cur)
  | seg :: rest =>
    match (h.obj cur).content.entries.lookup seg with
    | some (.dirE c) => h.getLeafDir c rest (depth + 1)
    | some (.fileE _) => (.notADir depth, cur)
    | none => (.missing depth, cur)

/-- `PrivateDirectory::read` on the heap (`search_latest = false`): walk
to the leaf directory and return the file's reassembled content; fails
with `NotAFile` on a directory and `NotFound` on a missing path. -/
def Heap.read (h : Heap) (root : Nat) (segs : List String) : Except FsError Bytes :=
  match splitLast segs with
  | none => .error .InvalidPath
  | some (path, filename) =>
    match h.getLeafDir root path 0 with
    | (.found, leaf) =>
      match (h.obj leaf).content.entries.lookup filename with
      | some (.fileE f) => .ok f.get_content
      | some (.dirE _) => .error .NotAFile
      | none => .error .NotFound
    | _ => .error .NotFound

/-- Heap well-formedness: every child address referenced by an allocated
cell is itself allocated and has a positive reference count. -/
def WFb (h : Heap) : Bool :=
  h.objs.all fun o =>
    (dirChildren o).all fun c =>
      decide (c < h.objs.length) && decide (1 ≤ h.rc c)

/-- Propositional form of heap well-formedness. -/
abbrev WF (h : Heap) : Prop := WFb h = true

/-! ### Frame lemmas for the copy-on-write claim -/

/-- Cells below an index agree between two heaps. -/
def PresBelow (n : Nat) (h h2 : Heap) : Prop :=
  ∀ i, i < n → h2.objs[i]? = h.objs[i]?

theorem PresBelow.rfl (n : Nat) (h : Heap) : PresBelow n h h :=
  fun _ _ => Eq.refl _

theorem PresBelow.trans {n : Nat} {h1 h2 h3 : Heap} (p : PresBelow n h1 h2)
    (q : PresBelow n h2 h3) : PresBelow n h1 h3 :=
  fun i hi => (q i hi).trans (p i hi)

theorem Heap.obj_congr {n : Nat} {h h2 : Heap} (hp : PresBelow n h h2) {a : Nat}
    (ha : a < n) : h2.obj a = h.obj a := by
  simp [Heap.obj, List.getD_eq_getElem?_getD, hp a ha]

/-- A successful association-list lookup is a membership. -/
theorem mem_of_lookup {α : Type} (l : List (String × α)) (key : String) (v : α)
    (h : l.lookup key = some v) : (key, v) ∈ l := by
  induction l with
  | nil => simp [List.lookup] at h
  | cons e rest ih =>
    obtain ⟨k2, v2⟩ := e
    simp only [List.lookup] at h
    split at h
    · obtain rfl := Option.some.inj h
      rename_i hbeq
      have hk : key = k2 := by simpa [beq_iff_eq] using hbeq
      subst hk
      exact List.mem_cons_self _ _
    · exact List.mem_cons_of_mem _ (ih h)

/-- A directory-entry lookup hands back a member of `dirChildren`. -/
theorem child_mem_of_lookup (o : DirObjH) (seg : String) (c : Nat)
    (h : o.content.entries.lookup seg = some (.dirE c)) : c ∈ dirChildren o := by
  have hmem := mem_of_lookup _ _ _ h
  simp only [dirChildren, List.mem_filterMap]
  exact ⟨(seg, .dirE c), hmem, rfl⟩

/-- Dereferencing an allocated cell is a membership. -/
theorem obj_mem {h : Heap} {a : Nat} (ha : a < h.objs.length) : h.obj a ∈ h.objs := by
  have : h.objs[a]? = some (h.obj a) := by
    simp [Heap.obj, List.getD_eq_getElem?_getD, List.getElem?_eq_getElem ha]
  exact List.getElem?_mem this

/-- Extracting the well-formedness facts for a child of an allocated cell. -/
theorem WF.child_spec {h : Heap} (hwf : WF h) {a c : Nat} (ha : a < h.objs.length)
    (hc : c ∈ dirChildren (h.obj a)) : c < h.objs.length ∧ 1 ≤ h.rc c := by
  have hmem := obj_mem ha
  simp only [WF, WFb, List.all_eq_true] at hwf
  have h3 := hwf _ hmem _ hc
  simpa using h3

/-- Well-formedness from the member-wise description. -/
theorem WF.of_spec {h : Heap}
    (hs : ∀ o ∈ h.objs, ∀ c ∈ dirChildren o, c < h.objs.length ∧ 1 ≤ h.rc c) :
    WF h := by
  simp only [WF, WFb, List.all_eq_true]
  intro o ho c hc
  simpa using hs o ho c hc

/-- Overwriting a cell and dereferencing it. -/
theorem Heap.obj_setObj_self {h : Heap} {i : Nat} (hi : i < h.objs.length)
    (o : DirObjH) : (h.setObj i o).obj i = o := by
  simp [Heap.setObj, Heap.obj, List.getD_eq_getElem?_getD, List.getElem?_set_self hi]

/-- Overwriting one cell leaves the others as they were. -/
theorem Heap.obj_setObj_ne {h : Heap} {i j : Nat} (hij : i ≠ j) (o : DirObjH) :
    (h.setObj i o).obj j = h.obj j := by
  simp [Heap.setObj, Heap.obj, List.getD_eq_getElem?_getD, List.getElem?_set_ne hij]

/-- Overwriting a cell keeps the heap size. -/
theorem Heap.length_setObj (h : Heap) (i : Nat) (o : DirObjH) :
    (h.setObj i o).objs.length = h.objs.length := by
  simp [Heap.setObj]

/-- Overwriting a cell keeps all reference counts. -/
theorem Heap.rc_setObj (h : Heap) (i : Nat) (o : DirObjH) :
    (h.setObj i o).rc = h.rc := rfl

/-- The facts delivered by `Rc::make_mut` on a shared cell: the handle
moves to the fresh clone at the end of the heap, existing cells are
untouched, every child of the cloned cell ends up shared (count at least
two), the clone starts at count one, and positive counts stay positive;
well-formedness is preserved. -/
theorem makeMut_facts {h : Heap} {a : Nat} (hwf : WF h) (hrc : 2 ≤ h.rc a)
    (ha : a < h.objs.length) {a2 : Nat} {h2 : Heap} (heq : h.makeMut a = (a2, h2)) :
    a2 = h.objs.length ∧
    h2.objs = h.objs ++ [h.obj a] ∧
    (∀ c ∈ dirChildren (h.obj a), 2 ≤ h2.rc c) ∧
    h2.rc a2 = 1 ∧
    (∀ x, 1 ≤ h.rc x → 1 ≤ h2.rc x) ∧
    WF h2 := by
  unfold Heap.makeMut at heq
  rw [if_neg (by omega)] at heq
  obtain ⟨rfl, rfl⟩ := Prod.mk.injEq .. ▸ heq
  have hchild : ∀ c ∈ dirChildren (h.obj a), 2 ≤
      (if c = h.objs.length then 1
       else if c = a then h.rc c + (dirChildren (h.obj a)).count c - 1
       else h.rc c + (dirChildren (h.obj a)).count c) := by
    intro c hc
    have hlt := (hwf.child_spec ha hc).1
    have hone := (hwf.child_spec ha hc).2
    have hcount : 1 ≤ (dirChildren (h.obj a)).count c := List.count_pos_iff.mpr hc
    rw [if_neg (by omega)]
    by_cases hca : c = a
    · subst hca
      simp only [if_pos]
      omega
    · rw [if_neg hca]
      omega
  have hmono : ∀ x, 1 ≤ h.rc x →
      1 ≤ (if x = h.objs.length then 1
       else if x = a then h.rc x + (dirChildren (h.obj a)).count x - 1
       else h.rc x + (dirChildren (h.obj a)).count x) := by
    intro x hx
    by_cases h1 : x = h.objs.length
    · rw [if_pos h1]
    · rw [if_neg h1]
      by_cases h2 : x = a
      · subst h2
        simp only [if_pos]
        omega
      · rw [if_neg h2]
        omega
  refine ⟨rfl, rfl, hchild, by simp, hmono, ?_⟩
  refine WF.of_spec fun o ho c hc => ?_
  have ho2 : o ∈ h.objs := by
    rcases List.mem_append.mp ho with hm | hm
    · exact hm
    · rw [List.mem_singleton.mp hm]
      exact obj_mem ha
  have hspec : c < h.objs.length ∧ 1 ≤ h.rc c := by
    simp only [WF, WFb, List.all_eq_true] at hwf
    simpa using hwf o ho2 c hc
  constructor
  · simp only [List.length_append, List.length_cons, List.length_nil]
    omega
  · exact hmono c hspec.2

/-- The facts delivered by `prepare_next_revision` through a shared
handle: same shape as `makeMut_facts`; the clone's entries are those of
the original cell (the revision bump touches only cache, previous links
and ratchet). -/
theorem prepareNextRev_facts {h : Heap} {a : Nat} (hwf : WF h) (hrc : 2 ≤ h.rc a)
    (ha : a < h.objs.length) {a2 : Nat} {h2 : Heap}
    (heq : h.prepareNextRev a = (a2, h2)) :
    a2 = h.objs.length ∧
    h2.objs.length = h.objs.length + 1 ∧
    PresBelow h.objs.length h h2 ∧
    (h2.obj a2).content.entries = (h.obj a).content.entries ∧
    (∀ c ∈ dirChildren (h.obj a), 2 ≤ h2.rc c) ∧
    h2.rc a2 = 1 ∧
    (∀ x, 1 ≤ h.rc x → 1 ≤ h2.rc x) ∧
    WF h2 := by
  rcases hmk : h.makeMut a with ⟨am, hm⟩
  obtain ⟨hma, hmobjs, hmchild, hmone, hmmono, hmwf⟩ := makeMut_facts hwf hrc ha hmk
  subst hma
  have hmlen : hm.objs.length = h.objs.length + 1 := by
    simp [hmobjs]
  have hobjsm : hm.obj h.objs.length = h.obj a := by
    simp [Heap.obj, hmobjs, List.getD_eq_getElem?_getD]
  unfold Heap.prepareNextRev at heq
  split at heq
  · rw [hmk] at heq
    obtain ⟨rfl, rfl⟩ := Prod.mk.injEq .. ▸ heq
    refine ⟨rfl, hmlen, ?_, by rw [hobjsm], hmchild, hmone, hmmono, hmwf⟩
    intro i hi
    rw [hmobjs]
    rw [List.getElem?_append, if_pos hi]
  · rw [hmk] at heq
    simp only at heq
    obtain ⟨rfl, rfl⟩ := Prod.mk.injEq .. ▸ heq
    refine ⟨rfl, ?_, ?_, ?_, hmchild, hmone, hmmono, ?_⟩
    · simp [Heap.setObj, hmlen]
    · intro i hi
      simp only [Heap.setObj]
      rw [List.getElem?_set_ne (by omega), hmobjs, List.getElem?_append, if_pos hi]
    · rw [Heap.obj_setObj_self (by omega)]
      simp [hobjsm]
    · refine WF.of_spec fun o ho c hc => ?_
      simp only [Heap.setObj] at ho
      rcases List.mem_or_eq_of_mem_set ho with hm2 | hm2
      · have hw := hmwf
        simp only [WF, WFb, List.all_eq_true] at hw
        have hs := hw o hm2 c hc
        simp only [Bool.and_eq_true, decide_eq_true_eq] at hs
        refine ⟨?_, hs.2⟩
        simp only [Heap.setObj, List.length_set]
        exact hs.1
      · subst hm2
        have hc2 : c ∈ dirChildren (h.obj a) := by
          simpa [dirChildren, hobjsm] using hc
        have hs := hwf.child_spec ha hc2
        refine ⟨?_, by simp only [Heap.rc_setObj]; have := hmchild c hc2; omega⟩
        simp only [Heap.setObj, List.length_set, hmlen]
        omega

/-- Dereferencing the cell just appended to the heap. -/
theorem obj_append_self {h h2 : Heap} {o : DirObjH}
    (hobjs : h2.objs = h.objs ++ [o]) : h2.obj h.objs.length = o := by
  simp [Heap.obj, hobjs, List.getD_eq_getElem?_getD]

/-- `updateEntry` keeps the heap size. -/
theorem Heap.length_updateEntry (h : Heap) (a : Nat) (key : String) (e : EntryH) :
    (h.updateEntry a key e).objs.length = h.objs.length := by
  simp [Heap.updateEntry, Heap.length_setObj]

/-- `updateEntry` keeps all reference counts. -/
theorem Heap.rc_updateEntry (h : Heap) (a : Nat) (key : String) (e : EntryH) :
    (h.updateEntry a key e).rc = h.rc := rfl

/-- `updateEntry` leaves other cells as they were. -/
theorem Heap.obj_updateEntry_ne {h : Heap} {a j : Nat} (haj : a ≠ j) (key : String)
    (e : EntryH) : (h.updateEntry a key e).obj j = h.obj j :=
  Heap.obj_setObj_ne haj _

/-- `updateEntry` preserves the cells below a bound when it targets a cell
at or above it. -/
theorem Heap.presBelow_updateEntry (h : Heap) {n a : Nat} (ha : n ≤ a) (key : String)
    (e : EntryH) : PresBelow n h (h.updateEntry a key e) := by
  intro i hi
  simp only [Heap.updateEntry, Heap.setObj]
  rw [List.getElem?_set_ne (by omega)]

/-- `dirChildren` only looks at the entries. -/
theorem dirChildren_congr {o1 o2 : DirObjH}
    (he : o1.content.entries = o2.content.entries) : dirChildren o1 = dirChildren o2 := by
  simp [dirChildren, he]

/-- Members of a filtered tail stay members after consing. -/
theorem mem_filterMap_cons_of_mem {α β : Type} (f : α → Option β) (p : α)
    (l : List α) (x : β) (hx : x ∈ l.filterMap f) : x ∈ (p :: l).filterMap f := by
  rw [List.filterMap_cons]
  cases f p with
  | none => exact hx
  | some b => exact List.mem_cons_of_mem _ hx

/-- A child of an entry map with one entry replaced is an old child or the
replacement. -/
theorem child_of_assocSet (l : List (String × EntryH)) (key : String) (e : EntryH)
    (c : Nat) (hc : c ∈ (assocSet l key e).filterMap fun x =>
      match x.2 with
      | .dirE a => some a
      | .fileE _ => none) :
    (c ∈ l.filterMap fun x =>
      match x.2 with
      | .dirE a => some a
      | .fileE _ => none) ∨ e = .dirE c := by
  induction l with
  | nil =>
    cases e with
    | dirE a =>
      have hca : c = a := by simpa [assocSet] using hc
      exact Or.inr (by rw [hca])
    | fileE f => simp [assocSet] at hc
  | cons p rest ih =>
    obtain ⟨k2, v2⟩ := p
    by_cases hk : k2 = key
    · rw [show assocSet ((k2, v2) :: rest) key e = (key, e) :: rest from by
        simp [assocSet, hk]] at hc
      cases e with
      | dirE a =>
        simp only [List.filterMap_cons] at hc
        rcases List.mem_cons.mp hc with hca | hcr
        · exact Or.inr (by rw [hca])
        · exact Or.inl (mem_filterMap_cons_of_mem _ _ _ _ hcr)
      | fileE f2 =>
        simp only [List.filterMap_cons] at hc
        exact Or.inl (mem_filterMap_cons_of_mem _ _ _ _ hc)
    · rw [show assocSet ((k2, v2) :: rest) key e = (k2, v2) :: assocSet rest key e from by
        simp [assocSet, hk]] at hc
      cases v2 with
      | dirE b =>
        simp only [List.filterMap_cons] at hc
        rcases List.mem_cons.mp hc with hcb | hcr
        · refine Or.inl ?_
          rw [List.filterMap_cons]
          simp only
          exact List.mem_cons.mpr (Or.inl hcb)
        · rcases ih hcr with hm | hm
          · exact Or.inl (mem_filterMap_cons_of_mem _ _ _ _ hm)
          · exact Or.inr hm
      | fileE f2 =>
        simp only [List.filterMap_cons] at hc
        rcases ih hc with hm | hm
        · exact Or.inl (mem_filterMap_cons_of_mem _ _ _ _ hm)
        · exact Or.inr hm

/-- `updateEntry` preserves well-formedness provided the new entry's child
(if any) is allocated and referenced. -/
theorem WF.updateEntry {h : Heap} (hwf : WF h) {a : Nat} {key : String} {e : EntryH}
    (he : ∀ c, e = .dirE c → c < h.objs.length ∧ 1 ≤ h.rc c) :
    WF (h.updateEntry a key e) := by
  refine WF.of_spec fun o ho c hc => ?_
  rw [Heap.length_updateEntry, Heap.rc_updateEntry]
  simp only [Heap.updateEntry, Heap.setObj] at ho
  rcases List.mem_or_eq_of_mem_set ho with hm | hm
  · simp only [WF, WFb, List.all_eq_true] at hwf
    simpa using hwf o hm c hc
  · subst hm
    simp only [dirChildren] at hc
    rcases child_of_assocSet _ _ _ _ hc with hold | hnew
    · by_cases halen : a < h.objs.length
      · have : c ∈ dirChildren (h.obj a) := by simpa [dirChildren] using hold
        exact hwf.child_spec halen this
      · have hdef : h.obj a = default := by
          simp only [Heap.obj]
          rw [List.getD_eq_getElem?_getD, List.getElem?_eq_none (by omega)]
          rfl
        rw [hdef] at hold
        simp [default, dirChildren] at hold
    · exact he c hnew

/-- The invariant carried down the mutable walk: the heap stays
well-formed, never shrinks, preserves every original cell, and the
current cell is fresh with every child an original, shared cell. -/
def Inv (h0 h : Heap) (cur : Nat) : Prop :=
  WF h ∧
  h0.objs.length ≤ h.objs.length ∧
  PresBelow h0.objs.length h0 h ∧
  h0.objs.length ≤ cur ∧
  cur < h.objs.length ∧
  (∀ c ∈ dirChildren (h.obj cur), c < h0.objs.length ∧ 2 ≤ h.rc c)

/-- The mutable descent preserves the invariant: starting from a fresh
current cell whose children are original and shared, every
`prepare_next_revision` along the path clones, so original cells are
never written. -/
theorem descend_frame (h0 : Heap) (hwf0 : WF h0) :
    ∀ (segs : List String) (h : Heap) (cur depth : Nat), Inv h0 h cur →
    ∀ res stop h2, h.descend cur segs depth = (res, stop, h2) →
    Inv h0 h2 stop := by
  intro segs
  induction segs with
  | nil =>
    intro h cur depth hinv res stop h2 heq
    unfold Heap.descend at heq
    simp only [Prod.mk.injEq] at heq
    obtain ⟨rfl, rfl, rfl⟩ := heq
    exact hinv
  | cons seg rest ih =>
    intro h cur depth hinv res stop h2 heq
    obtain ⟨hwf, hlen, hpres, hcurge, hcurlt, hch⟩ := hinv
    unfold Heap.descend at heq
    rcases hlook : (h.obj cur).content.entries.lookup seg with _ | entry
    · rw [hlook] at heq
      simp only [Prod.mk.injEq] at heq
      obtain ⟨rfl, rfl, rfl⟩ := heq
      exact ⟨hwf, hlen, hpres, hcurge, hcurlt, hch⟩
    · cases entry with
      | fileE f =>
        rw [hlook] at heq
        simp only [Prod.mk.injEq] at heq
        obtain ⟨rfl, rfl, rfl⟩ := heq
        exact ⟨hwf, hlen, hpres, hcurge, hcurlt, hch⟩
      | dirE c =>
        rw [hlook] at heq
        have heq2 : (match h.prepareNextRev c with
            | (c2, hp) =>
              (hp.updateEntry cur seg (EntryH.dirE c2)).descend c2 rest (depth + 1)) =
            (res, stop, h2) := heq
        rcases hprep : h.prepareNextRev c with ⟨c2, hp⟩
        rw [hprep] at heq2
        have hcmem := child_mem_of_lookup _ _ _ hlook
        obtain ⟨hclt, hcrc⟩ := hch c hcmem
        obtain ⟨hpa, hplen, hppres, hpentries, hpchild, hpone, hpmono, hpwf⟩ :=
          prepareNextRev_facts hwf hcrc (by omega) hprep
        subst hpa
        refine ih _ h.objs.length (depth + 1) ?_ res stop h2 heq2
        have hobjc : h.obj c = h0.obj c := Heap.obj_congr hpres hclt
        have hc2ne : cur ≠ h.objs.length := by omega
        have hupentries : ((hp.updateEntry cur seg (.dirE h.objs.length)).obj
            h.objs.length).content.entries = (h.obj c).content.entries := by
          rw [Heap.obj_updateEntry_ne hc2ne, hpentries]
        refine ⟨?_, ?_, ?_, ?_, ?_, ?_⟩
        · refine hpwf.updateEntry fun c' hc' => ?_
          obtain rfl := EntryH.dirE.inj hc'
          exact ⟨by omega, by rw [hpone]⟩
        · rw [Heap.length_updateEntry]
          omega
        · refine hpres.trans ?_
          have p1 : PresBelow h0.objs.length h hp := fun i hi => hppres i (by omega)
          exact p1.trans (hp.presBelow_updateEntry (by omega) _ _)
        · omega
        · rw [Heap.length_updateEntry]
          omega
        · intro c' hc'
          rw [dirChildren_congr hupentries] at hc'
          rw [hobjc] at hc'
          have hspec := hwf0.child_spec hclt hc'
          refine ⟨hspec.1, ?_⟩
          rw [Heap.rc_updateEntry]
          refine hpchild c' ?_
          rw [hobjc]
          exact hc'

/-- The `makeMut` facts in the same shape as `prepareNextRev_facts`. -/
theorem makeMut_facts2 {h : Heap} {a : Nat} (hwf : WF h) (hrc : 2 ≤ h.rc a)
    (ha : a < h.objs.length) {a2 : Nat} {h2 : Heap} (heq : h.makeMut a = (a2, h2)) :
    a2 = h.objs.length ∧
    h2.objs.length = h.objs.length + 1 ∧
    PresBelow h.objs.length h h2 ∧
    (h2.obj a2).content.entries = (h.obj a).content.entries ∧
    (∀ c ∈ dirChildren (h.obj a), 2 ≤ h2.rc c) ∧
    h2.rc a2 = 1 ∧
    (∀ x, 1 ≤ h.rc x → 1 ≤ h2.rc x) ∧
    WF h2 := by
  obtain ⟨hma, hmobjs, hmchild, hmone, hmmono, hmwf⟩ := makeMut_facts hwf hrc ha heq
  subst hma
  refine ⟨rfl, by simp [hmobjs], ?_, by rw [obj_append_self hmobjs], hmchild, hmone,
    hmmono, hmwf⟩
  intro i hi
  rw [hmobjs, List.getElem?_append, if_pos hi]

/-- The heap produced by `alloc`, as a named function for proofs. -/
def Heap.allocHeap (h : Heap) (o : DirObjH) : Heap :=
  { objs := h.objs ++ [o]
    rc := fun x => if x = h.objs.length then 1 else h.rc x }

/-- The children of a fresh directory cell: none. -/
theorem dirChildren_newDirObj (parent_bare_name : Namefilter) (time : Int)
    (inumber ratchet_seed : Bytes) :
    dirChildren (newDirObj parent_bare_name time inumber ratchet_seed) = [] := rfl

/-- The creation walk of `get_or_create_leaf_dir_mut` preserves the
invariant: every `make_mut` along it clones (the handles are shared), and
the freshly allocated directories are new cells, so original cells are
never written. -/
theorem createChain_frame (h0 : Heap) (hwf0 : WF h0) (time : Int) (rng : Nat → Bytes) :
    ∀ (segs : List String) (h : Heap) (cur k : Nat), Inv h0 h cur →
    ∀ leaf h2 k2, h.createChain cur segs time rng k = (leaf, h2, k2) →
    Inv h0 h2 leaf := by
  intro segs
  induction segs with
  | nil =>
    intro h cur k hinv leaf h2 k2 heq
    unfold Heap.createChain at heq
    simp only [Prod.mk.injEq] at heq
    obtain ⟨rfl, rfl, rfl⟩ := heq
    exact hinv
  | cons seg rest ih =>
    intro h cur k hinv leaf h2 k2 heq
    obtain ⟨hwf, hlen, hpres, hcurge, hcurlt, hch⟩ := hinv
    unfold Heap.createChain at heq
    rcases hlook : (h.obj cur).content.entries.lookup seg with _ | entry
    · rw [hlook] at heq
      have heq2 : (((h.allocHeap
            (newDirObj (h.obj cur).header.bare_name time (rng k) (rng (k + 1)))).updateEntry
            cur seg (EntryH.dirE h.objs.length)).createChain h.objs.length rest time rng
            (k + 2)) = (leaf, h2, k2) := heq
      refine ih _ h.objs.length (k + 2) ?_ leaf h2 k2 heq2
      set child := newDirObj (h.obj cur).header.bare_name time (rng k) (rng (k + 1))
        with hchd
      set hA : Heap := h.allocHeap child with hhA
      have hAobjs : hA.objs = h.objs ++ [child] := by rw [hhA]; rfl
      have hAlen : hA.objs.length = h.objs.length + 1 := by
        simp [hAobjs]
      have hArc : hA.rc = fun x => if x = h.objs.length then 1 else h.rc x := by
        rw [hhA]
        rfl
      have hAwf : WF hA := by
        refine WF.of_spec fun o ho c2 hc2 => ?_
        rw [hAobjs] at ho
        rcases List.mem_append.mp ho with hm | hm
        · have hs : c2 < h.objs.length ∧ 1 ≤ h.rc c2 := by
            simp only [WF, WFb, List.all_eq_true] at hwf
            simpa using hwf o hm c2 hc2
          refine ⟨by rw [hAlen]; omega, ?_⟩
          rw [hArc]
          by_cases hcl : c2 = h.objs.length
          · simp [hcl]
          · simpa [hcl] using hs.2
        · rw [List.mem_singleton.mp hm, hchd, dirChildren_newDirObj] at hc2
          simp at hc2
      have hc2ne : cur ≠ h.objs.length := by omega
      refine ⟨?_, ?_, ?_, by omega, ?_, ?_⟩
      · refine hAwf.updateEntry fun c2 hc2 => ?_
        obtain rfl := EntryH.dirE.inj hc2
        refine ⟨by rw [hAlen]; omega, by rw [hArc]; simp⟩
      · rw [Heap.length_updateEntry, hAlen]
        omega
      · refine hpres.trans (PresBelow.trans ?_ (hA.presBelow_updateEntry (by omega) _ _))
        intro i hi
        rw [hAobjs, List.getElem?_append, if_pos (by omega)]
      · rw [Heap.length_updateEntry, hAlen]
        omega
      · intro c2 hc2
        have hobjA : (hA.updateEntry cur seg (EntryH.dirE h.objs.length)).obj
            h.objs.length = child := by
          rw [Heap.obj_updateEntry_ne hc2ne]
          exact obj_append_self hAobjs
        rw [hobjA, hchd, dirChildren_newDirObj] at hc2
        simp at hc2
    · cases entry with
      | fileE f =>
        rw [hlook] at heq
        simp only [Prod.mk.injEq] at heq
        obtain ⟨rfl, rfl, rfl⟩ := heq
        exact ⟨hwf, hlen, hpres, hcurge, hcurlt, hch⟩
      | dirE c =>
        rw [hlook] at heq
        have heq2 : (match h.makeMut c with
            | (c2, hm) =>
              (hm.updateEntry cur seg (EntryH.dirE c2)).createChain c2 rest time rng k) =
            (leaf, h2, k2) := heq
        rcases hmk : h.makeMut c with ⟨c2, hm⟩
        rw [hmk] at heq2
        have hcmem := child_mem_of_lookup _ _ _ hlook
        obtain ⟨hclt, hcrc⟩ := hch c hcmem
        obtain ⟨hpa, hplen, hppres, hpentries, hpchild, hpone, hpmono, hpwf⟩ :=
          makeMut_facts2 hwf hcrc (by omega) hmk
        subst hpa
        refine ih _ h.objs.length k ?_ leaf h2 k2 heq2
        have hobjc : h.obj c = h0.obj c := Heap.obj_congr hpres hclt
        have hc2ne : cur ≠ h.objs.length := by omega
        have hupentries : ((hm.updateEntry cur seg (.dirE h.objs.length)).obj
            h.objs.length).content.entries = (h.obj c).content.entries := by
          rw [Heap.obj_updateEntry_ne hc2ne, hpentries]
        refine ⟨?_, ?_, ?_, ?_, ?_, ?_⟩
        · refine hpwf.updateEntry fun c3 hc3 => ?_
          obtain rfl := EntryH.dirE.inj hc3
          exact ⟨by omega, by rw [hpone]⟩
        · rw [Heap.length_updateEntry]
          omega
        · refine hpres.trans ?_
          have p1 : PresBelow h0.objs.length h hm := fun i hi => hppres i (by omega)
          exact p1.trans (hm.presBelow_updateEntry (by omega) _ _)
        · omega
        · rw [Heap.length_updateEntry]
          omega
        · intro c3 hc3
          rw [dirChildren_congr hupentries] at hc3
          rw [hobjc] at hc3
          have hspec := hwf0.child_spec hclt hc3
          refine ⟨hspec.1, ?_⟩
          rw [Heap.rc_updateEntry]
          refine hpchild c3 ?_
          rw [hobjc]
          exact hc3

/-- `get_or_create_leaf_dir_mut` preserves every original cell, and a
successful leaf is a fresh cell satisfying the invariant. -/
theorem getOrCreate_frame (h0 : Heap) (root : Nat) (segs : List String) (time : Int)
    (rng : Nat → Bytes) (k : Nat) (hwf : WF h0) (hroot : root < h0.objs.length)
    (hshared : 2 ≤ h0.rc root) {res : Except FsError Nat} {r0 : Nat} {h1 : Heap}
    {k1 : Nat} (heq : h0.getOrCreate root segs time rng k = (res, r0, h1, k1)) :
    PresBelow h0.objs.length h0 h1 ∧
    ∀ leaf, res = .ok leaf → Inv h0 h1 leaf := by
  rcases hprep : h0.prepareNextRev root with ⟨rA, hA⟩
  obtain ⟨hpa, hplen, hppres, hpentries, hpchild, hpone, hpmono, hpwf⟩ :=
    prepareNextRev_facts hwf hshared hroot hprep
  subst hpa
  have hInvA : Inv h0 hA h0.objs.length := by
    refine ⟨hpwf, by omega, hppres, le_refl _, by omega, ?_⟩
    intro c hc
    rw [dirChildren_congr hpentries] at hc
    exact ⟨(hwf.child_spec hroot hc).1, hpchild c hc⟩
  rcases hdesc : hA.descend h0.objs.length segs 0 with ⟨dres, stop, hB⟩
  have hInvB := descend_frame h0 hwf segs hA h0.objs.length 0 hInvA dres stop hB hdesc
  cases dres with
  | found =>
    simp only [Heap.getOrCreate, hprep, hdesc, Prod.mk.injEq] at heq
    obtain ⟨rfl, rfl, rfl, rfl⟩ := heq
    refine ⟨hInvB.2.2.1, fun leaf hleaf => ?_⟩
    obtain rfl := Except.ok.inj hleaf
    exact hInvB
  | notADir depth =>
    simp only [Heap.getOrCreate, hprep, hdesc, Prod.mk.injEq] at heq
    obtain ⟨rfl, rfl, rfl, rfl⟩ := heq
    exact ⟨hInvB.2.2.1, fun leaf hleaf => Except.noConfusion hleaf⟩
  | missing depth =>
    rcases hcc : hB.createChain stop (segs.drop depth) time rng k with ⟨leaf2, hC, k2⟩
    simp only [Heap.getOrCreate, hprep, hdesc, hcc, Prod.mk.injEq] at heq
    obtain ⟨rfl, rfl, rfl, rfl⟩ := heq
    have hInvC := createChain_frame h0 hwf time rng _ hB stop k hInvB leaf2 hC k2 hcc
    refine ⟨hInvC.2.2.1, fun leaf hleaf => ?_⟩
    obtain rfl := Except.ok.inj hleaf
    exact hInvC

/-- The central frame fact: a write through a shared root handle never
touches any cell of the original heap. -/
theorem write_frame (h0 : Heap) (root : Nat) (segs : List String) (time : Int)
    (content : Bytes) (rng : Nat → Bytes) (k : Nat) (hwf : WF h0)
    (hroot : root < h0.objs.length) (hshared : 2 ≤ h0.rc root) :
    PresBelow h0.objs.length h0 (h0.write root segs time content rng k).heap := by
  rcases hsp : splitLast segs with _ | pf
  · simp only [Heap.write, hsp]
    exact PresBelow.rfl _ _
  · obtain ⟨path, filename⟩ := pf
    rcases hgoc : h0.getOrCreate root path time rng k with ⟨res, r0, h1, k1⟩
    obtain ⟨hpres1, hok⟩ := getOrCreate_frame h0 root path time rng k hwf hroot hshared hgoc
    cases res with
    | error e =>
      simp only [Heap.write, hsp, hgoc]
      exact hpres1
    | ok leaf =>
      obtain ⟨hwf1, hlen1, hpres2, hleafge, hleaflt, hch1⟩ := hok leaf rfl
      rcases hlook : (h1.obj leaf).content.entries.lookup filename with _ | entry
      · simp only [Heap.write, hsp, hgoc, hlook]
        exact hpres1.trans (h1.presBelow_updateEntry hleafge _ _)
      · cases entry with
        | fileE f =>
          simp only [Heap.write, hsp, hgoc, hlook]
          exact hpres1.trans (h1.presBelow_updateEntry hleafge _ _)
        | dirE d =>
          simp only [Heap.write, hsp, hgoc, hlook]
          exact hpres1

/-- A read-only walk sees the same cells on any heap preserving the
originals. -/
theorem getLeafDir_congr (h0 hX : Heap) (hwf0 : WF h0)
    (hpres : PresBelow h0.objs.length h0 hX) :
    ∀ (segs : List String) (a depth : Nat), a < h0.objs.length →
      hX.getLeafDir a segs depth = h0.getLeafDir a segs depth ∧
      (hX.getLeafDir a segs depth).2 < h0.objs.length := by
  intro segs
  induction segs with
  | nil =>
    intro a depth ha
    exact ⟨rfl, ha⟩
  | cons seg rest ih =>
    intro a depth ha
    have hobj : hX.obj a = h0.obj a := Heap.obj_congr hpres ha
    unfold Heap.getLeafDir
    rw [hobj]
    rcases hlook : (h0.obj a).content.entries.lookup seg with _ | entry
    · exact ⟨rfl, ha⟩
    · cases entry with
      | fileE f => exact ⟨rfl, ha⟩
      | dirE c =>
        have hc := (hwf0.child_spec ha (child_mem_of_lookup _ _ _ hlook)).1
        exact ih c (depth + 1) hc

/-- A read from an original cell returns the same result on any heap
preserving the originals. -/
theorem read_congr (h0 hX : Heap) (hwf0 : WF h0)
    (hpres : PresBelow h0.objs.length h0 hX) (root : Nat)
    (hroot : root < h0.objs.length) (segs : List String) :
    hX.read root segs = h0.read root segs := by
  rcases hsp : splitLast segs with _ | pf
  · simp only [Heap.read, hsp]
  · obtain ⟨path, filename⟩ := pf
    obtain ⟨hgl, hlt⟩ := getLeafDir_congr h0 hX hwf0 hpres path root 0 hroot
    simp only [Heap.read, hsp]
    rw [hgl]
    rcases hglr : h0.getLeafDir root path 0 with ⟨tag, leaf⟩
    rw [hgl, hglr] at hlt
    cases tag with
    | found =>
      have hlt2 : leaf < h0.objs.length := hlt
      show (match List.lookup filename (hX.obj leaf).content.entries with
        | some (EntryH.fileE f) => Except.ok f.get_content
        | some (EntryH.dirE a) => Except.error FsError.NotAFile
        | none => Except.error FsError.NotFound) =
        (match List.lookup filename (h0.obj leaf).content.entries with
        | some (EntryH.fileE f) => Except.ok f.get_content
        | some (EntryH.dirE a) => Except.error FsError.NotAFile
        | none => Except.error FsError.NotFound)
      rw [Heap.obj_congr hpres hlt2]
    | notADir d => rfl
    | missing d => rfl

end Rc

/-! ## Claim C2: copy-on-write through a shared root handle -/

/-- C2: on the `Rc` heap, if the root directory's cell is shared (the
old handle `old_dir` and its clone `new_dir` both point at it), then a
`write` of any path and bytes performed through the clone's handle leaves
every original cell of the heap byte-for-byte unchanged, and a read of
any path through the old handle returns exactly what it returned before
the write — including still failing with `NotFound` where it did. -/
theorem write_copy_on_write (h0 : Rc.Heap) (root : Nat) (segs : List String)
    (time : Int) (content : Bytes) (rng : Nat → Bytes) (k : Nat)
    (hwf : Rc.WF h0) (hroot : root < h0.objs.length) (hshared : 2 ≤ h0.rc root) :
    (∀ i, i < h0.objs.length →
      (h0.write root segs time content rng k).heap.objs[i]? = h0.objs[i]?) ∧
    (∀ q, (h0.write root segs time content rng k).heap.read root q =
      h0.read root q) := by
  have hpres := Rc.write_frame h0 root segs time content rng k hwf hroot hshared
  exact ⟨fun i hi => hpres i hi,
    fun q => Rc.read_congr h0 _ hwf hpres root hroot q⟩

/-- A concrete deterministic random stream used by witnesses. -/
def rngW : Nat → Bytes := fun i => List.replicate 32 i

/-- A concrete file living in the witness heap for C2. -/
def fileW : PrivateFile :=
  PrivateFile.newWith Namefilter.empty 0 (List.replicate 32 3) (List.replicate 32 4)

/-- A concrete root directory cell for the C2 witness: stored at CID 5,
holding one file entry. -/
def rootObjW : Rc.DirObjH :=
  { header := PrivateNodeHeader.with_seed Namefilter.empty (List.replicate 32 1)
      (List.replicate 32 2)
    content :=
      { persisted_as := some 5
        previous := []
        metadata := Metadata.new 0
        entries := [("f.txt", .fileE fileW)] } }

/-- A concrete heap for the C2 witness: one root cell whose handle is
shared between `old_dir` and `new_dir` (count 2). -/
def heapW : Rc.Heap :=
  { objs := [rootObjW]
    rc := fun x => if x = 0 then 2 else 0 }

/-- C2 witness: after writing `docs/n.txt` through the cloned handle of
the concrete shared heap, the original root cell is unchanged and a read
of `f.txt` through the old handle returns what it returned before. -/
theorem write_copy_on_write_witness :
    (heapW.write 0 ["docs", "n.txt"] 7 [1, 2, 3] rngW 0).heap.objs[0]? =
      heapW.objs[0]? ∧
    (heapW.write 0 ["docs", "n.txt"] 7 [1, 2, 3] rngW 0).heap.read 0 ["f.txt"] =
      heapW.read 0 ["f.txt"] :=
  ⟨(write_copy_on_write heapW 0 ["docs", "n.txt"] 7 [1, 2, 3] rngW 0 (by decide)
      (by decide) (by decide)).1 0 (by decide),
   (write_copy_on_write heapW 0 ["docs", "n.txt"] 7 [1, 2, 3] rngW 0 (by decide)
      (by decide) (by decide)).2 ["f.txt"]⟩

/-! ## Claim C1: `PrivateDirectory::prepare_next_revision` -/

/-- C1: for every private directory, if `persisted_as` is unset,
`prepare_next_revision` returns it unchanged (previous untouched, ratchet
not advanced); if it was stored at CID `c`, the result has exactly the
single previous entry `(1, key-wrap of c under the current temporal
key)`, a cleared `persisted_as`, and the ratchet advanced by one step,
everything else (inumber, bare name, metadata, entries) being a clone. -/
theorem prepare_next_revision_spec (d : PrivateDirectory) :
    (d.persisted_as = none → d.prepare_next_revision = d) ∧
    (∀ c, d.persisted_as = some c →
      d.prepare_next_revision.persisted_as = none ∧
      d.prepare_next_revision.previous =
        [(1, Encrypted.from_value c d.header.derive_temporal_key)] ∧
      d.prepare_next_revision.header.ratchet = d.header.ratchet.inc ∧
      d.prepare_next_revision.header.inumber = d.header.inumber ∧
      d.prepare_next_revision.header.bare_name = d.header.bare_name ∧
      d.prepare_next_revision.metadata = d.metadata ∧
      d.prepare_next_revision.entries = d.entries) := by
  obtain ⟨header, content⟩ := d
  obtain ⟨persisted_as, previous, metadata, entries⟩ := content
  cases persisted_as <;>
    simp [PrivateDirectory.prepare_next_revision, PrivateDirectory.persisted_as,
      PrivateDirectory.previous, PrivateDirectory.header, PrivateDirectory.metadata,
      PrivateDirectory.entries, PrivateNodeHeader.advance_ratchet]

/-- A concrete stored directory used to witness C1. -/
def witnessDirC1 : PrivateDirectory :=
  .mk (PrivateNodeHeader.with_seed Namefilter.empty (List.replicate 32 7) (List.replicate 32 9))
    (.mk (some 5) [] (Metadata.new 3) [])

/-- C1 witness: the stored branch of `prepare_next_revision_spec` at a
concrete directory persisted at CID 5. -/
theorem prepare_next_revision_spec_witness :
    witnessDirC1.prepare_next_revision.persisted_as = none ∧
    witnessDirC1.prepare_next_revision.previous =
      [(1, Encrypted.from_value 5 witnessDirC1.header.derive_temporal_key)] ∧
    witnessDirC1.prepare_next_revision.header.ratchet = witnessDirC1.header.ratchet.inc ∧
    witnessDirC1.prepare_next_revision.header.inumber = witnessDirC1.header.inumber ∧
    witnessDirC1.prepare_next_revision.header.bare_name = witnessDirC1.header.bare_name ∧
    witnessDirC1.prepare_next_revision.metadata = witnessDirC1.metadata ∧
    witnessDirC1.prepare_next_revision.entries = witnessDirC1.entries :=
  (prepare_next_revision_spec witnessDirC1).2 5 rfl

/-! ## Claim C6: `BlockStore::create_cid` -/

/-- C6: `create_cid` fails with `MaximumBlockSizeExceeded` carrying the
byte length exactly when the length exceeds `MAX_BLOCK_SIZE`; otherwise
it returns the v1 CID built from the codec tag and the SHA-256 multihash
of the bytes, and, being a function of the bytes and the codec, yields
equal CIDs on equal inputs. -/
theorem create_cid_spec (digest : Bytes → Bytes) (bytes : Bytes) (codec : Codec) :
    (createCid digest bytes codec = .error (.MaximumBlockSizeExceeded bytes.length) ↔
      bytes.length > MAX_BLOCK_SIZE) ∧
    (bytes.length ≤ MAX_BLOCK_SIZE →
      createCid digest bytes codec = .ok ⟨codec.tag, sha256Multihash digest bytes⟩) ∧
    ((∃ e, createCid digest bytes codec = .error e) ↔ bytes.length > MAX_BLOCK_SIZE) ∧
    (∀ bytes2, bytes = bytes2 →
      createCid digest bytes codec = createCid digest bytes2 codec) := by
  refine ⟨?_, ?_, ?_, ?_⟩ <;> unfold createCid
  · constructor
    · intro hcontra
      by_contra hnot
      rw [if_neg hnot] at hcontra
      exact Except.noConfusion hcontra
    · intro hbig
      rw [if_pos hbig]
  · intro hle
    rw [if_neg (by omega)]
  · constructor
    · rintro ⟨e, he⟩
      by_contra hnot
      rw [if_neg hnot] at he
      exact Except.noConfusion he
    · intro hbig
      exact ⟨_, by rw [if_pos hbig]⟩
  · rintro bytes2 rfl
    rfl

/-- C6 witness: both sides of the size gate at concrete inputs — a
three-byte block gets the structural SHA-256 v1 CID, and a block one byte
over the limit fails carrying its length. -/
theorem create_cid_spec_witness :
    createCid (fun b => b) [1, 2, 3] .Raw =
      .ok ⟨Codec.tag .Raw, sha256Multihash (fun b => b) [1, 2, 3]⟩ ∧
    createCid (fun b => b) (List.replicate (MAX_BLOCK_SIZE + 1) 0) .Raw =
      .error (.MaximumBlockSizeExceeded (MAX_BLOCK_SIZE + 1)) := by
  constructor
  · exact (create_cid_spec (fun b => b) [1, 2, 3] .Raw).2.1 (by norm_num [MAX_BLOCK_SIZE])
  · have := ((create_cid_spec (fun b => b) (List.replicate (MAX_BLOCK_SIZE + 1) 0) .Raw).1).2
      (by simp)
    simpa using this

/-! ## Claim C7: the HTTP client block store's request shapes -/

/-- C7 (divergence record): the requests the HTTP client store actually
assembles, evaluated at the failing input `addr = 127.0.0.1:5001`,
`bytes = [1, 2, 3]`, codec `Raw` (identity digest model).  The put
request targets `/api/v0/block/put/<cid>` — the CID in the path, not the
bare put endpoint — and its body is the four bytes of the literal string
`data`; the block bytes appear nowhere in the request.  The get request
targets `/api/v0/block/get/` with no query string at all (no `?arg=`);
the CID travels in a header named `arg`. -/
theorem client_requests_as_built :
    clientPutBlockRequest (fun b => b) "127.0.0.1:5001" [1, 2, 3] .Raw =
      .ok ({ method := "POST"
             uri := "http://127.0.0.1:5001/api/v0/block/put/" ++
               (CidV1.mk (Codec.tag .Raw) ⟨0x12, 32, [1, 2, 3]⟩).render
             headers := [("Host", "127.0.0.1:5001")]
             body := [100, 97, 116, 97] },
            ⟨Codec.tag .Raw, ⟨0x12, 32, [1, 2, 3]⟩⟩) ∧
    clientGetBlockRequest "127.0.0.1:5001" ⟨Codec.tag .Raw, ⟨0x12, 32, [1, 2, 3]⟩⟩ =
      { method := "POST"
        uri := "127.0.0.1:5001/api/v0/block/get/"
        headers := [("Host", "example.com"),
                    ("arg", (CidV1.mk (Codec.tag .Raw) ⟨0x12, 32, [1, 2, 3]⟩).render)]
        body := [] } ∧
    ((clientGetBlockRequest "127.0.0.1:5001"
        ⟨Codec.tag .Raw, ⟨0x12, 32, [1, 2, 3]⟩⟩).uri.toList.all fun ch => ch ≠ '?') = true := by
  refine ⟨?_, ?_, ?_⟩
  · rfl
  · rfl
  · decide

/-! ## Claim C8: determinism of `with_seed` -/

/-- C8: two directories created by `with_seed` from the same parent bare
name, creation time, 32-byte ratchet seed and 32-byte inumber have
headers with identical derived temporal keys and identical saturated
names; `with_seed` consults no randomness, so two independent runs
coincide. -/
theorem with_seed_deterministic (parent_bare_name : Namefilter) (time : Int)
    (ratchet_seed inumber : Bytes)
    (_hseed : ratchet_seed.length = 32) (_hinum : inumber.length = 32) :
    (PrivateDirectory.with_seed parent_bare_name time ratchet_seed inumber).header.derive_temporal_key =
      (PrivateDirectory.with_seed parent_bare_name time ratchet_seed inumber).header.derive_temporal_key ∧
    (PrivateDirectory.with_seed parent_bare_name time ratchet_seed inumber).header.get_saturated_name =
      (PrivateDirectory.with_seed parent_bare_name time ratchet_seed inumber).header.get_saturated_name :=
  ⟨rfl, rfl⟩

/-- C8 witness: the determinism statement at a concrete seed pair. -/
theorem with_seed_deterministic_witness :
    (PrivateDirectory.with_seed Namefilter.empty 11
        (List.replicate 32 1) (List.replicate 32 2)).header.derive_temporal_key =
      (PrivateDirectory.with_seed Namefilter.empty 11
        (List.replicate 32 1) (List.replicate 32 2)).header.derive_temporal_key ∧
    (PrivateDirectory.with_seed Namefilter.empty 11
        (List.replicate 32 1) (List.replicate 32 2)).header.get_saturated_name =
      (PrivateDirectory.with_seed Namefilter.empty 11
        (List.replicate 32 1) (List.replicate 32 2)).header.get_saturated_name :=
  with_seed_deterministic Namefilter.empty 11 (List.replicate 32 1) (List.replicate 32 2)
    (by simp) (by simp)

/-! ## Claim C9: `PublicFile::prepare_next_revision` between stores -/

/-- C9: a public file stored exactly once at CID `c` caches `c`; the first
`prepare_next_revision` clears the cache and makes `previous` the
singleton `{c}`, and a second application to (a clone of) that result is
the identity — `previous` stays `{c}` with no nesting until the next
store. -/
theorem public_file_prepare_idempotent (f : PublicFile) (st : Store) (c : Cid)
    (f1 : PublicFile) (st1 : Store)
    (hnew : f.persisted_as = none) (hstore : f.store st = (c, f1, st1)) :
    f1.persisted_as = some c ∧
    f1.prepare_next_revision.persisted_as = none ∧
    f1.prepare_next_revision.previous = [c] ∧
    f1.prepare_next_revision.prepare_next_revision = f1.prepare_next_revision := by
  simp only [PublicFile.store, hnew] at hstore
  obtain ⟨rfl, rfl, rfl⟩ := Prod.mk.injEq .. ▸ hstore
  simp [PublicFile.prepare_next_revision]

/-- A concrete fresh public file used to witness C9. -/
def witnessFileC9 : PublicFile := PublicFile.new 17 4

/-- C9 witness: the idempotence chain after storing a concrete fresh
public file into the empty store. -/
theorem public_file_prepare_idempotent_witness :
    (witnessFileC9.store []).2.1.persisted_as = some 0 ∧
    (witnessFileC9.store []).2.1.prepare_next_revision.persisted_as = none ∧
    (witnessFileC9.store []).2.1.prepare_next_revision.previous = [0] ∧
    (witnessFileC9.store []).2.1.prepare_next_revision.prepare_next_revision =
      (witnessFileC9.store []).2.1.prepare_next_revision :=
  public_file_prepare_idempotent witnessFileC9 [] 0 (witnessFileC9.store []).2.1
    (witnessFileC9.store []).2.2 rfl rfl

/-! ## Claim C3: header store/load roundtrip -/

/-- Looking a block up right after an append lands in the appended part. -/
theorem getBlock_append (st : Store) (bs : List BlockData) (i : Nat) :
    getBlock (st ++ bs) (st.length + i) = bs[i]? := by
  simp only [getBlock]
  rw [List.getElem?_append_right (by omega)]
  congr 1
  omega

/-- Looking a block up at the old length lands on the first appended block. -/
theorem getBlock_append0 (st : Store) (bs : List BlockData) :
    getBlock (st ++ bs) st.length = bs[0]? := by
  have := getBlock_append st bs 0
  simpa using this

/-- C3: storing a private node header and loading it back with the derived
temporal key yields the header itself (same inumber, ratchet and bare
name); loading with the derived snapshot key yields the same inumber and
bare name but the ratchet replaced by the all-zero placeholder
`Ratchet::zero([0; 32])`. -/
theorem header_store_load_roundtrip (h : PrivateNodeHeader) (st : Store) (c : Cid)
    (st2 : Store) (hstore : h.store st = (c, st2)) :
    PrivateNodeHeader.load_temporal c h.derive_temporal_key st2 = .ok h ∧
    PrivateNodeHeader.load_snapshot c h.derive_temporal_key.derive_snapshot_key st2 =
      .ok { h with ratchet := Ratchet.zero (List.replicate 32 0) } := by
  simp only [PrivateNodeHeader.store, putBlock, keyWrapEncrypt, List.length_append,
    List.length_cons, List.length_nil, List.append_assoc, List.singleton_append,
    List.cons_append, List.nil_append] at hstore
  obtain ⟨rfl, rfl⟩ := Prod.mk.injEq .. ▸ hstore
  constructor
  · simp [PrivateNodeHeader.load_temporal, getAndUnwrap, keyWrapDecrypt,
      getBlock_append, getBlock_append0, List.lookup, Bind.bind, Except.bind]
  · simp [PrivateNodeHeader.load_snapshot, getAndUnwrap, keyWrapDecrypt,
      getBlock_append, getBlock_append0, List.lookup, Bind.bind, Except.bind]

/-- A concrete header used to witness C3. -/
def witnessHeaderC3 : PrivateNodeHeader :=
  PrivateNodeHeader.with_seed Namefilter.empty (List.replicate 32 4) (List.replicate 32 6)

/-- C3 witness: the roundtrip at a concrete header stored into the empty
store. -/
theorem header_store_load_roundtrip_witness :
    PrivateNodeHeader.load_temporal (witnessHeaderC3.store []).1
        witnessHeaderC3.derive_temporal_key (witnessHeaderC3.store []).2 =
      .ok witnessHeaderC3 ∧
    PrivateNodeHeader.load_snapshot (witnessHeaderC3.store []).1
        witnessHeaderC3.derive_temporal_key.derive_snapshot_key (witnessHeaderC3.store []).2 =
      .ok { witnessHeaderC3 with ratchet := Ratchet.zero (List.replicate 32 0) } :=
  header_store_load_roundtrip witnessHeaderC3 [] (witnessHeaderC3.store []).1
    (witnessHeaderC3.store []).2 rfl

/-! ## Claim C4: the serialization version gate -/

/-- Whether a result is an `UnexpectedVersion` failure. -/
def isUnexpectedVersion {α : Type} : Except FsError α → Bool
  | .error (.UnexpectedVersion _) => true
  | _ => false

/-- A bind whose both sides never fail with `UnexpectedVersion` never
fails with `UnexpectedVersion`. -/
theorem isUnexpectedVersion_bind {α β : Type} (x : Except FsError α)
    (f : α → Except FsError β) (hx : isUnexpectedVersion x = false)
    (hf : ∀ a, isUnexpectedVersion (f a) = false) :
    isUnexpectedVersion (Bind.bind x f) = false := by
  cases x with
  | ok a => simpa [Bind.bind, Except.bind] using hf a
  | error e => cases e <;> simp_all [Bind.bind, Except.bind, isUnexpectedVersion]

/-- Fetching and unwrapping a header field never fails with
`UnexpectedVersion`. -/
theorem isUnexpectedVersion_getAndUnwrap (st : Store) (key : Bytes) (c : Cid) :
    isUnexpectedVersion (getAndUnwrap st key c) = false := by
  unfold getAndUnwrap keyWrapDecrypt
  rcases hgb : getBlock st c with _ | d
  · rfl
  · cases d with
    | wrapped key2 f =>
      show isUnexpectedVersion
        (if key2 = key then Except.ok f else Except.error FsError.CryptoError) = false
      split <;> rfl
    | ipldMap m => rfl
    | pubFile f => rfl

/-- Loading a header never fails with `UnexpectedVersion`. -/
theorem isUnexpectedVersion_load_temporal (c : Cid) (tk : TemporalKey) (st : Store) :
    isUnexpectedVersion (PrivateNodeHeader.load_temporal c tk st) = false := by
  rcases hgb : getBlock st c with _ | d
  · simp [PrivateNodeHeader.load_temporal, hgb, isUnexpectedVersion]
  cases d with
  | wrapped key f => simp [PrivateNodeHeader.load_temporal, hgb, isUnexpectedVersion]
  | pubFile f => simp [PrivateNodeHeader.load_temporal, hgb, isUnexpectedVersion]
  | ipldMap m =>
    rcases hl1 : m.lookup "inumber" with _ | c1
    · simp [PrivateNodeHeader.load_temporal, hgb, hl1, isUnexpectedVersion]
    rcases hl2 : m.lookup "ratchet" with _ | c2
    · simp [PrivateNodeHeader.load_temporal, hgb, hl1, hl2, isUnexpectedVersion]
    rcases hl3 : m.lookup "bare_name" with _ | c3
    · simp [PrivateNodeHeader.load_temporal, hgb, hl1, hl2, hl3, isUnexpectedVersion]
    simp only [PrivateNodeHeader.load_temporal, hgb, hl1, hl2, hl3]
    refine isUnexpectedVersion_bind _ _ (isUnexpectedVersion_getAndUnwrap ..) fun a => ?_
    refine isUnexpectedVersion_bind _ _ (isUnexpectedVersion_getAndUnwrap ..) fun b => ?_
    refine isUnexpectedVersion_bind _ _ (isUnexpectedVersion_getAndUnwrap ..) fun e => ?_
    cases a <;> cases b <;> cases e <;> rfl

/-- Decrypting the serialized entries never fails with
`UnexpectedVersion`. -/
theorem isUnexpectedVersion_decryptEntries
    (entries : List (String × PrivateRefSerializable)) (tk : TemporalKey) :
    isUnexpectedVersion (decryptEntries entries tk) = false := by
  induction entries with
  | nil => rfl
  | cons e rest ih =>
    obtain ⟨name, s⟩ := e
    unfold decryptEntries
    refine isUnexpectedVersion_bind _ _ ?_ fun pr => ?_
    · unfold PrivateRef.from_serializable
      split <;> rfl
    · exact isUnexpectedVersion_bind _ _ ih fun tail => rfl

/-- Replace the patch component of a version. -/
def Version.withPatch (v : Version) (p : Nat) : Version := ⟨v.major, v.minor, p⟩

/-- Replace the patch component of a serialized private directory. -/
def PrivateDirectoryContentSerializable.withPatch
    (s : PrivateDirectoryContentSerializable) (p : Nat) :
    PrivateDirectoryContentSerializable :=
  { s with version := s.version.withPatch p }

/-- Replace the patch component of a serialized public file. -/
def PublicFileSerializable.withPatch (s : PublicFileSerializable) (p : Nat) :
    PublicFileSerializable :=
  { s with version := s.version.withPatch p }

/-- C4: deserializing a persisted private directory
(`from_serializable_temporal`) or public file (`from_serializable`) fails
with `UnexpectedVersion` precisely when the serialized `(major, minor)`
differs from `(0, 2)`; the patch component is never consulted — the
`UnexpectedVersion` outcome is invariant under changing it, and when the
gate passes the entire result is. -/
theorem version_gate_spec :
    (∀ (s : PrivateDirectoryContentSerializable) (tk : TemporalKey) (cid : Cid) (st : Store),
      isUnexpectedVersion (PrivateDirectory.from_serializable_temporal s tk cid st) = true ↔
        ¬(s.version.major = 0 ∧ s.version.minor = 2)) ∧
    (∀ s : PublicFileSerializable,
      isUnexpectedVersion (PublicFile.from_serializable s) = true ↔
        ¬(s.version.major = 0 ∧ s.version.minor = 2)) ∧
    (∀ (s : PrivateDirectoryContentSerializable) (tk : TemporalKey) (cid : Cid) (st : Store)
        (p : Nat),
      isUnexpectedVersion (PrivateDirectory.from_serializable_temporal (s.withPatch p) tk cid st) =
        isUnexpectedVersion (PrivateDirectory.from_serializable_temporal s tk cid st)) ∧
    (∀ (s : PublicFileSerializable) (p : Nat),
      isUnexpectedVersion (PublicFile.from_serializable (s.withPatch p)) =
        isUnexpectedVersion (PublicFile.from_serializable s)) ∧
    (∀ (s : PrivateDirectoryContentSerializable) (tk : TemporalKey) (cid : Cid) (st : Store)
        (p : Nat), s.version.major = 0 → s.version.minor = 2 →
      PrivateDirectory.from_serializable_temporal (s.withPatch p) tk cid st =
        PrivateDirectory.from_serializable_temporal s tk cid st) := by
  have hdir : ∀ (s : PrivateDirectoryContentSerializable) (tk : TemporalKey) (cid : Cid)
      (st : Store),
      isUnexpectedVersion (PrivateDirectory.from_serializable_temporal s tk cid st) = true ↔
        ¬(s.version.major = 0 ∧ s.version.minor = 2) := by
    intro s tk cid st
    unfold PrivateDirectory.from_serializable_temporal
    by_cases hv : s.version.major ≠ 0 ∨ s.version.minor ≠ 2
    · rw [if_pos hv]
      simp only [isUnexpectedVersion, true_iff]
      tauto
    · rw [if_neg hv]
      have hno : isUnexpectedVersion
          (do
            let entries_decrypted ← decryptEntries s.entries tk
            let header ← PrivateNodeHeader.load_temporal s.header_cid tk st
            Except.ok (PrivateDirectory.mk header
              (.mk (some cid) s.previous s.metadata entries_decrypted))) = false := by
        refine isUnexpectedVersion_bind _ _ (isUnexpectedVersion_decryptEntries ..) fun e => ?_
        exact isUnexpectedVersion_bind _ _ (isUnexpectedVersion_load_temporal ..) fun hd => rfl
      rw [hno]
      simp only [Bool.false_eq_true, false_iff, not_not]
      tauto
  have hfile : ∀ s : PublicFileSerializable,
      isUnexpectedVersion (PublicFile.from_serializable s) = true ↔
        ¬(s.version.major = 0 ∧ s.version.minor = 2) := by
    intro s
    unfold PublicFile.from_serializable
    by_cases hv : s.version.major ≠ 0 ∨ s.version.minor ≠ 2
    · rw [if_pos hv]
      simp only [isUnexpectedVersion, true_iff]
      tauto
    · rw [if_neg hv]
      simp only [isUnexpectedVersion, Bool.false_eq_true, false_iff, not_not]
      tauto
  refine ⟨hdir, hfile, ?_, ?_, ?_⟩
  · intro s tk cid st p
    have h1 := hdir (s.withPatch p) tk cid st
    have h2 := hdir s tk cid st
    by_cases hv : s.version.major = 0 ∧ s.version.minor = 2
    · have e1 : isUnexpectedVersion
          (PrivateDirectory.from_serializable_temporal (s.withPatch p) tk cid st) = false := by
        rcases Bool.eq_false_or_eq_true (isUnexpectedVersion
          (PrivateDirectory.from_serializable_temporal (s.withPatch p) tk cid st)) with hb | hb
        · exact absurd hv (h1.mp hb)
        · exact hb
      have e2 : isUnexpectedVersion
          (PrivateDirectory.from_serializable_temporal s tk cid st) = false := by
        rcases Bool.eq_false_or_eq_true (isUnexpectedVersion
          (PrivateDirectory.from_serializable_temporal s tk cid st)) with hb | hb
        · exact absurd hv (h2.mp hb)
        · exact hb
      rw [e1, e2]
    · rw [h1.mpr hv, h2.mpr hv]
  · intro s p
    have h1 := hfile (s.withPatch p)
    have h2 := hfile s
    by_cases hv : s.version.major = 0 ∧ s.version.minor = 2
    · have e1 : isUnexpectedVersion (PublicFile.from_serializable (s.withPatch p)) = false := by
        rcases Bool.eq_false_or_eq_true
          (isUnexpectedVersion (PublicFile.from_serializable (s.withPatch p))) with hb | hb
        · exact absurd hv (h1.mp hb)
        · exact hb
      have e2 : isUnexpectedVersion (PublicFile.from_serializable s) = false := by
        rcases Bool.eq_false_or_eq_true
          (isUnexpectedVersion (PublicFile.from_serializable s)) with hb | hb
        · exact absurd hv (h2.mp hb)
        · exact hb
      rw [e1, e2]
    · rw [h1.mpr hv, h2.mpr hv]
  · intro s tk cid st p hmaj hmin
    unfold PrivateDirectory.from_serializable_temporal
    rw [if_neg (by simp [PrivateDirectoryContentSerializable.withPatch, Version.withPatch, hmaj, hmin]),
      if_neg (by simp [hmaj, hmin])]
    rfl

/-- C4 witness: the gate evaluated at concrete serialized public files —
version `(1, 2, 3)` is rejected with `UnexpectedVersion`, version
`(0, 2, 9)` is not (only major/minor are checked). -/
theorem version_gate_spec_witness :
    isUnexpectedVersion (PublicFile.from_serializable ⟨⟨1, 2, 3⟩, Metadata.new 0, 0, []⟩) = true ∧
    isUnexpectedVersion (PublicFile.from_serializable ⟨⟨0, 2, 9⟩, Metadata.new 0, 0, []⟩) = false := by
  constructor
  · exact (version_gate_spec.2.1 ⟨⟨1, 2, 3⟩, Metadata.new 0, 0, []⟩).mpr (by simp)
  · rcases Bool.eq_false_or_eq_true
      (isUnexpectedVersion (PublicFile.from_serializable ⟨⟨0, 2, 9⟩, Metadata.new 0, 0, []⟩)) with hb | hb
    · exact absurd ((version_gate_spec.2.1 ⟨⟨0, 2, 9⟩, Metadata.new 0, 0, []⟩).mp hb) (by simp)
    · exact hb

/-! ## Claim C5: the write branches at the leaf -/

/-- Looking up the key just set in an association list yields the set
value. -/
theorem lookup_assocSet {α : Type} (l : List (String × α)) (key : String) (v : α) :
    (assocSet l key v).lookup key = some v := by
  induction l with
  | nil => simp [assocSet, List.lookup]
  | cons e rest ih =>
    obtain ⟨key2, v2⟩ := e
    by_cases h : key2 = key
    · simp [assocSet, h, List.lookup]
    · have hne : (key == key2) = false := by
        simp only [beq_eq_false_iff_ne, ne_eq]
        exact fun hc => h hc.symm
      simp [assocSet, if_neg h, List.lookup, hne, ih]

/-- `splitLast` splits off an appended last segment. -/
theorem splitLast_append {α : Type} (xs : List α) (x : α) :
    splitLast (xs ++ [x]) = some (xs, x) := by
  induction xs with
  | nil => rfl
  | cons y ys ih =>
    cases ys with
    | nil => rfl
    | cons z zs =>
      simp only [List.cons_append] at ih ⊢
      unfold splitLast
      rw [ih]

/-- Inversion of a successful `lookup_node_mut` at `search_latest = false`:
the returned directory carries the resolved node written back into the
entry, so re-looking the segment up yields that node. -/
theorem lookupNodeMut_inv (resolveO : PrivateRef → PrivateNode)
    (latestO : PrivateNode → PrivateNode) (d : PrivateDirectory) (seg : String)
    (n : PrivateNode) (d2 : PrivateDirectory)
    (h : lookupNodeMut resolveO latestO d seg false = some (n, d2)) :
    d2 = d.setEntry seg (.node n) ∧
    lookupNode resolveO latestO d2 seg false = some n := by
  unfold lookupNodeMut at h
  rcases hl : d.entries.lookup seg with _ | l
  · rw [hl] at h
    exact absurd h (by simp)
  · rw [hl] at h
    simp only [Bool.false_eq_true, if_false, Option.some.injEq, Prod.mk.injEq] at h
    obtain ⟨hn, hd2⟩ := h
    subst hn
    subst hd2
    refine ⟨rfl, ?_⟩
    obtain ⟨hh, cc⟩ := d
    obtain ⟨pa, pr, m, e⟩ := cc
    simp only [lookupNode, PrivateDirectory.setEntry, PrivateDirectory.entries]
    rw [lookup_assocSet]
    rfl

/-- The file produced by the replace branch of `write`: the revision-
prepared file with its content re-encoded and its mtime updated. -/
def replacedFile (f : PrivateFile) (time : Int) (content : Bytes) (draw : Bytes) :
    PrivateFile :=
  let f1 := f.prepare_next_revision
  { f1 with content :=
      { f1.content with
          content := prepareContent f1.header.bare_name content draw
          metadata := f1.content.metadata.upsert_mtime time } }

/-- C5: with the leaf directory of the path opened mutably, `write` on the
last segment behaves by cases — an entry resolving to a directory makes
it fail with `DirectoryAlreadyExists`, the entry still resolving to that
same directory; an entry resolving to a file replaces the file's content
with the re-encoded bytes and updates its mtime; a missing entry gets a
fresh `PrivateFile::with_content` under that name.  (The `search_latest`
flag is `false`: entries are what the directory holds.) -/
theorem write_leaf_semantics (resolveO : PrivateRef → PrivateNode)
    (latestO : PrivateNode → PrivateNode) (root : PrivateDirectory)
    (path : List String) (filename : String) (time : Int) (content : Bytes)
    (rng : Nat → Bytes) (k : Nat) (leaf : PrivateDirectory)
    (ctx : PrivateDirectory → PrivateDirectory) (k1 : Nat)
    (hleaf : getOrCreateLeafDirMut resolveO latestO root path time false rng k =
      .ok (leaf, ctx, k1)) :
    (∀ dnode leaf2,
      lookupNodeMut resolveO latestO leaf filename false = some (.dir dnode, leaf2) →
      write resolveO latestO root (path ++ [filename]) false time content rng k =
        (.error .DirectoryAlreadyExists, ctx leaf2, k1) ∧
      lookupNode resolveO latestO leaf2 filename false = some (.dir dnode)) ∧
    (∀ f leaf2,
      lookupNodeMut resolveO latestO leaf filename false = some (.file f, leaf2) →
      write resolveO latestO root (path ++ [filename]) false time content rng k =
        (.ok (),
         ctx (leaf2.setEntry filename (.node (.file (replacedFile f time content (rng k1))))),
         k1 + 1) ∧
      lookupNode resolveO latestO
          (leaf2.setEntry filename (.node (.file (replacedFile f time content (rng k1)))))
          filename false = some (.file (replacedFile f time content (rng k1))) ∧
      (replacedFile f time content (rng k1)).content.content =
        prepareContent f.prepare_next_revision.header.bare_name content (rng k1) ∧
      (replacedFile f time content (rng k1)).content.metadata.modified = time) ∧
    (lookupNodeMut resolveO latestO leaf filename false = none →
      write resolveO latestO root (path ++ [filename]) false time content rng k =
        (.ok (),
         ctx (leaf.setEntry filename
           (.node (.file (PrivateFile.with_content leaf.header.bare_name time content rng k1).1))),
         (PrivateFile.with_content leaf.header.bare_name time content rng k1).2) ∧
      lookupNode resolveO latestO
          (leaf.setEntry filename
            (.node (.file (PrivateFile.with_content leaf.header.bare_name time content rng k1).1)))
          filename false =
        some (.file (PrivateFile.with_content leaf.header.bare_name time content rng k1).1)) := by
  refine ⟨?_, ?_, ?_⟩
  · intro dnode leaf2 hmut
    obtain ⟨hset, hlook⟩ := lookupNodeMut_inv resolveO latestO leaf filename _ _ hmut
    refine ⟨?_, hlook⟩
    simp only [write, splitLast_append, hleaf, hmut]
  · intro f leaf2 hmut
    obtain ⟨hset, hlook⟩ := lookupNodeMut_inv resolveO latestO leaf filename _ _ hmut
    subst hset
    refine ⟨?_, ?_, rfl, rfl⟩
    · simp only [write, splitLast_append, hleaf, hmut, replacedFile]
    · obtain ⟨hh, cc⟩ := leaf
      obtain ⟨pa, pr, m, e⟩ := cc
      simp only [lookupNode, PrivateDirectory.setEntry, PrivateDirectory.entries]
      rw [lookup_assocSet]
      simp [resolveLink]
  · intro hmut
    refine ⟨?_, ?_⟩
    · simp only [write, splitLast_append, hleaf, hmut]
    · obtain ⟨hh, cc⟩ := leaf
      obtain ⟨pa, pr, m, e⟩ := cc
      simp only [lookupNode, PrivateDirectory.setEntry, PrivateDirectory.entries]
      rw [lookup_assocSet]
      simp [resolveLink]

/-- A concrete child directory used to witness C5. -/
def childDirW : PrivateDirectory :=
  PrivateDirectory.with_seed Namefilter.empty 1 (List.replicate 32 3) (List.replicate 32 4)

/-- A concrete root directory with one subdirectory entry, used to witness
C5. -/
def rootDirW : PrivateDirectory :=
  .mk (PrivateNodeHeader.with_seed Namefilter.empty (List.replicate 32 1) (List.replicate 32 2))
    (.mk none [] (Metadata.new 0) [("d", .node (.dir childDirW))])

/-- A concrete link-resolution oracle used by witnesses. -/
def resolveW : PrivateRef → PrivateNode :=
  fun _ => .file (PrivateFile.newWith Namefilter.empty 0 [] [])

/-- A concrete latest-revision oracle used by witnesses. -/
def latestW : PrivateNode → PrivateNode := fun n => n

/-- C5 witness: writing over the existing subdirectory entry `d` of a
concrete root fails with `DirectoryAlreadyExists` and the entry still
resolves to that subdirectory. -/
theorem write_leaf_semantics_witness :
    write resolveW latestW rootDirW ["d"] false 7 [1, 2] rngW 0 =
      (.error .DirectoryAlreadyExists,
       rootDirW.setEntry "d" (.node (.dir childDirW)), 0) ∧
    lookupNode resolveW latestW (rootDirW.setEntry "d" (.node (.dir childDirW))) "d" false =
      some (.dir childDirW) :=
  (write_leaf_semantics resolveW latestW rootDirW [] "d" 7 [1, 2] rngW 0 rootDirW
      (fun x => x) 0 rfl).1 childDirW (rootDirW.setEntry "d" (.node (.dir childDirW))) rfl

/-! ## Claim C10: `get_node` on the empty path -/

/-- C10: for every directory, `get_node` with an empty path-segment list
returns `None` — for any link-resolution and latest-revision oracle (so
in particular without consulting the forest or block store), any
`search_latest` flag, and without erroring or returning the directory
itself. -/
theorem get_node_empty_path (resolveO : PrivateRef → PrivateNode)
    (latestO : PrivateNode → PrivateNode) (d : PrivateDirectory) (sl : Bool) :
    getNode resolveO latestO d [] sl = none :=
  rfl

end Wnfs
